import Mathlib

set_option maxRecDepth 100000

/-!
Verification of the ShaderToy-to-GLSL rewriter (`shadertoys_to_glsl.py`).

The transform is a sequence of four textual substitutions followed by
prepending a fixed preamble.  We embed strings as `List Char` and model
Python's `re.sub` with the patterns the source uses:

* `\biResolution\b`, `\biTime\b`, `\bfragCoord\b` are word-bounded
  whole-identifier substitutions, modelled by `subWord` (left-to-right,
  leftmost non-overlapping matches, a match requiring a non-word
  character or string edge on both sides);
* `void mainImage\( out vec4 fragColor, in vec2 fragCoord \)` is a plain
  literal substitution, modelled by `replaceAll`.

`isWordChar` is the ASCII restriction of the regex word class `\w`
(letters, digits, underscore), which covers all identifier characters of
GLSL sources.  The scanners carry a fuel argument equal to the input
length so that they are structurally recursive and kernel-computable.
-/

namespace S2G

/-- ASCII word character: letter, digit or underscore (regex `\w`). -/
def isWordChar (c : Char) : Bool := c.isAlphanum || c == '_'

/-- Word-boundary test on the left: the previous character (if any) must
not be a word character for `\b` to hold before a word-char pattern. -/
def noWordL : Option Char → Bool
  | none => true
  | some c => !isWordChar c

/-- Word-boundary test on the right: the next character (if any) must not
be a word character. -/
def bAfter : List Char → Bool
  | [] => true
  | c :: _ => !isWordChar c

/-- Does the word-bounded pattern `pat` match at the head of `s`, where
`prev` is the character just before `s` in the scanned text? -/
def wordMatchAt (pat : List Char) (prev : Option Char) (s : List Char) : Bool :=
  noWordL prev && pat.isPrefixOf s && bAfter (s.drop pat.length)

/-- Left-to-right scanner for `re.sub` with a word-bounded pattern.  At a
match it emits `repl` and resumes after the matched text (the previous
character for the next boundary test being the last character of the
match, i.e. of `pat`); otherwise it copies one character.  `fuel` bounds
the recursion and is irrelevant as long as it is at least the input
length. -/
def subWordAux (pat repl : List Char) : Option Char → Nat → List Char → List Char
  | _, 0, s => s
  | _, _ + 1, [] => []
  | prev, n + 1, c :: rest =>
    if wordMatchAt pat prev (c :: rest) then
      repl ++ subWordAux pat repl (some (pat.getLastD c)) n (List.drop (pat.length - 1) rest)
    else
      c :: subWordAux pat repl (some c) n rest

/-- `re.sub(r'\b<pat>\b', repl, s)` for a pattern made of word characters. -/
def subWord (pat repl s : List Char) : List Char :=
  subWordAux pat repl none s.length s

/-- Left-to-right scanner for `re.sub` with a plain literal pattern. -/
def replaceAllAux (pat repl : List Char) : Nat → List Char → List Char
  | 0, s => s
  | _ + 1, [] => []
  | n + 1, c :: rest =>
    if pat.isPrefixOf (c :: rest) then
      repl ++ replaceAllAux pat repl n (List.drop (pat.length - 1) rest)
    else
      c :: replaceAllAux pat repl n rest

/-- `re.sub` with a literal (escaped) pattern: replace every leftmost
non-overlapping occurrence. -/
def replaceAll (pat repl s : List Char) : List Char :=
  replaceAllAux pat repl s.length s

/-- Pattern of rule 1. -/
def patIResolution : List Char := "iResolution".data
/-- Replacement of rule 1. -/
def replUResolution : List Char := "uResolution".data
/-- Pattern of rule 2. -/
def patITime : List Char := "iTime".data
/-- Replacement of rule 2. -/
def replUTime : List Char := "uTime".data
/-- Literal pattern of rule 3 (exact spacing from the source). -/
def phrase : List Char := "void mainImage( out vec4 fragColor, in vec2 fragCoord )".data
/-- Replacement of rule 3. -/
def replVoidMain : List Char := "void main()".data
/-- Pattern of rule 4. -/
def patFragCoord : List Char := "fragCoord".data
/-- Replacement of rule 4. -/
def replGlFragCoord : List Char := "gl_FragCoord.xy".data

/-- The fixed preamble prepended by the source (exact text of `header`). -/
def header : List Char :=
  "#version 330 core\nuniform float uTime;         // Equivalent to iTime\nuniform vec2 uResolution;    // Equivalent to iResolution\nout vec4 fragColor;          // Output variable\n".data

/-- Rule 1: `re.sub(r'\biResolution\b', 'uResolution', s)`. -/
def sub_iResolution (s : List Char) : List Char := subWord patIResolution replUResolution s
/-- Rule 2: `re.sub(r'\biTime\b', 'uTime', s)`. -/
def sub_iTime (s : List Char) : List Char := subWord patITime replUTime s
/-- Rule 3: `re.sub(r'void mainImage\( out vec4 fragColor, in vec2 fragCoord \)', 'void main()', s)`. -/
def sub_mainImage (s : List Char) : List Char := replaceAll phrase replVoidMain s
/-- Rule 4: `re.sub(r'\bfragCoord\b', 'gl_FragCoord.xy', s)`. -/
def sub_fragCoord (s : List Char) : List Char := subWord patFragCoord replGlFragCoord s

/-- `convert_shadertoy_to_glsl` from the source: rules 1,2,3,4 in order,
then the preamble is prepended. -/
def convert_shadertoy_to_glsl (s : List Char) : List Char :=
  header ++ sub_fragCoord (sub_mainImage (sub_iTime (sub_iResolution s)))

/-- Modelled from the spec: the hypothetical variant pipeline of the
order-sensitivity scenario, which applies rule 4 (`fragCoord` →
`gl_FragCoord.xy`) before rule 3 (the literal `mainImage` phrase).  It is
not part of the source; claim C3 compares it with the real rule order. -/
def convert_swapped (s : List Char) : List Char :=
  header ++ sub_mainImage (sub_fragCoord (sub_iTime (sub_iResolution s)))

/-- Is there a word-bounded occurrence of `pat` anywhere in `s`, with
`prev` the character preceding `s`?  Mirrors the scan of `subWordAux`. -/
def hasWordOcc (pat : List Char) : Option Char → List Char → Bool
  | _, [] => false
  | prev, c :: rest => wordMatchAt pat prev (c :: rest) || hasWordOcc pat (some c) rest

/-- Is there a plain substring occurrence of `pat` anywhere in `s`? -/
def hasLitOcc (pat : List Char) : List Char → Bool
  | [] => false
  | c :: rest => pat.isPrefixOf (c :: rest) || hasLitOcc pat rest

/-- Certificate that scanning the block `b` can never fire a match of the
word-bounded `pat` at any position inside `b`, whatever text follows the
block.  `bOk` says whether the left word-boundary holds before the first
character of `b`.  Each position is blocked either by the left boundary
or because `pat` and the remaining block are prefix-incomparable. -/
def blockInert (pat : List Char) : Bool → List Char → Bool
  | _, [] => true
  | bOk, c :: b =>
    (!bOk || (!(pat.isPrefixOf (c :: b)) && !((c :: b).isPrefixOf pat))) &&
      blockInert pat (!isWordChar c) b

/-- The character just before the end of `b`, seen from a scan that
entered `b` with previous character `prev`. -/
def prevEnd (prev : Option Char) : List Char → Option Char
  | [] => prev
  | c :: b => prevEnd (some c) b

/-- Outcome of one CLI invocation: the process exit code and the file
system afterwards (a map from path to contents, `none` = unreadable). -/
structure RunResult where
  exitCode : Nat
  files : String → Option (List Char)

/-- `read_shader_from_file`: reading is fallible, `none` models the
`open`/`read` exception for a missing or unreadable file. -/
def read_shader_from_file (files : String → Option (List Char)) (p : String) :
    Option (List Char) := files p

/-- `write_shader_to_file`: writes the converted shader, replacing the
contents at `p`. -/
def write_shader_to_file (files : String → Option (List Char)) (p : String)
    (code : List Char) : String → Option (List Char) :=
  fun q => if q = p then some code else files q

/-- `main` of the source as a function of the file system and the two
parsed arguments: read, convert, write.  A failed read raises an
uncaught exception, which terminates the Python process with exit code 1
before anything is written; on success the process exits 0. -/
def main (files : String → Option (List Char)) (input_file output_file : String) :
    RunResult :=
  match read_shader_from_file files input_file with
  | none => ⟨1, files⟩
  | some shader => ⟨0, write_shader_to_file files output_file (convert_shadertoy_to_glsl shader)⟩

/-- Literal scenario 1 input (spec §8). -/
def scenario1 : List Char :=
  "void mainImage( out vec4 fragColor, in vec2 fragCoord ) \x7b fragColor = vec4(iResolution.xy, iTime, 1.0); \x7d".data

/-- The body the code actually produces for scenario 1. -/
def body1 : List Char :=
  "void main() \x7b fragColor = vec4(uResolution.xy, uTime, 1.0); \x7d".data

/-- The body claim C1 expects for scenario 1 (assignment target renamed). -/
def claimedBody1 : List Char :=
  "void main() \x7b gl_FragCoord.xy = vec4(uResolution.xy, uTime, 1.0); \x7d".data

/-- Literal scenario 2 input: an extra space before the signature's
closing parenthesis, so rule 3 cannot match. -/
def scenario2 : List Char :=
  "void mainImage( out vec4 fragColor, in vec2 fragCoord  ) \x7b fragColor = vec4(iResolution.xy, iTime, 1.0); \x7d".data

/-- The body the code actually produces for scenario 2: rule 3 does not
fire, but rule 4 still rewrites `fragCoord` inside the signature. -/
def body2 : List Char :=
  "void mainImage( out vec4 fragColor, in vec2 gl_FragCoord.xy  ) \x7b fragColor = vec4(uResolution.xy, uTime, 1.0); \x7d".data

/-- The body claim C2 expects for scenario 2: the original signature
fully untouched, rules 1/2/4 applied only elsewhere. -/
def claimedBody2 : List Char :=
  "void mainImage( out vec4 fragColor, in vec2 fragCoord  ) \x7b fragColor = vec4(uResolution.xy, uTime, 1.0); \x7d".data

/-- The identifier `fragColor`, assignment target of ShaderToy bodies. -/
def fragColorId : List Char := "fragColor".data

/-- Certificate that a literal (boundary-free) scan can never fire a
match of `pat` at any position inside the block `b`, whatever text
follows: at every position `pat` and the remaining block are
prefix-incomparable. -/
def litInert (pat : List Char) : List Char → Bool
  | [] => true
  | c :: b =>
    (!(pat.isPrefixOf (c :: b)) && !((c :: b).isPrefixOf pat)) && litInert pat b

/-- Boolean prefix test agrees with the prefix order. -/
theorem pfxOf_iff {l₁ l₂ : List Char} : l₁.isPrefixOf l₂ = true ↔ l₁ <+: l₂ :=
  List.isPrefixOf_iff_prefix

/-- Two prefixes of the same list are comparable. -/
theorem pfx_comp {a b c : List Char} (h₁ : a <+: c) (h₂ : b <+: c) :
    a <+: b ∨ b <+: a :=
  List.prefix_or_prefix_of_prefix h₁ h₂

/-- A list is a prefix of itself followed by anything. -/
theorem pfx_app (l₁ l₂ : List Char) : l₁ <+: l₁ ++ l₂ :=
  List.prefix_append l₁ l₂

/-- A prefix that fits inside the first summand is a prefix of it. -/
theorem pfx_of_append_le {a b t : List Char} (h : a <+: b ++ t)
    (hl : a.length ≤ b.length) : a <+: b := by
  rcases pfx_comp h (pfx_app b t) with h' | h'
  · exact h'
  · have he : b = a := h'.eq_of_length (Nat.le_antisymm h'.length_le hl)
    rw [he]

/-- Dropping within a prefix preserves the prefix relation. -/
theorem pfx_drop_pres {p s : List Char} (n : Nat) (h : p <+: s)
    (hn : n ≤ p.length) : p.drop n <+: s.drop n := by
  rcases h with ⟨t, ht⟩
  exact ⟨t, by
    rw [← ht, List.drop_append_eq_append_drop, Nat.sub_eq_zero_of_le hn,
      List.drop_zero]⟩

/-- Dropping inside the first summand of an append. -/
theorem drop_append_le {x : List Char} (y : List Char) {n : Nat}
    (hn : n ≤ x.length) : (x ++ y).drop n = x.drop n ++ y := by
  rw [List.drop_append_eq_append_drop, Nat.sub_eq_zero_of_le hn, List.drop_zero]

/-- The scanner ignores the exact fuel as long as it covers the input. -/
theorem subWordAux_fuel (pat repl : List Char) :
    ∀ (f₁ f₂ : Nat) (prev : Option Char) (s : List Char),
      s.length ≤ f₁ → s.length ≤ f₂ →
      subWordAux pat repl prev f₁ s = subWordAux pat repl prev f₂ s := by
  intro f₁
  induction f₁ with
  | zero =>
    intro f₂ prev s h1 _
    have : s = [] := List.length_eq_zero.mp (Nat.le_zero.mp h1)
    subst this
    cases f₂ <;> rfl
  | succ n ih =>
    intro f₂ prev s h1 h2
    cases s with
    | nil => cases f₂ <;> rfl
    | cons c rest =>
      cases f₂ with
      | zero => simp at h2
      | succ m =>
        simp only [subWordAux]
        cases hm : wordMatchAt pat prev (c :: rest) with
        | true =>
          simp only [hm, if_true]
          have hd : (List.drop (pat.length - 1) rest).length ≤ n := by
            simp only [List.length_cons] at h1
            simp only [List.length_drop]
            omega
          have hd2 : (List.drop (pat.length - 1) rest).length ≤ m := by
            simp only [List.length_cons] at h2
            simp only [List.length_drop]
            omega
          rw [ih m (some (pat.getLastD c)) _ hd hd2]
        | false =>
          simp only [hm, Bool.false_eq_true, if_false]
          have hr : rest.length ≤ n := by simpa using h1
          have hr2 : rest.length ≤ m := by simpa using h2
          rw [ih m (some c) rest hr hr2]

/-- `prevEnd` composes over appends. -/
theorem prevEnd_append :
    ∀ (x y : List Char) (p : Option Char),
      prevEnd p (x ++ y) = prevEnd (prevEnd p x) y := by
  intro x
  induction x with
  | nil => intro y p; rfl
  | cons c x' ih => intro y p; exact ih y (some c)

/-- `prevEnd` of a nonempty list is one of its elements. -/
theorem prevEnd_mem :
    ∀ (u : List Char) (p : Option Char), u ≠ [] →
      ∃ d, prevEnd p u = some d ∧ d ∈ u := by
  intro u
  induction u with
  | nil => intro p h; cases h rfl
  | cons c u' ih =>
    intro p _
    cases u' with
    | nil => exact ⟨c, rfl, by simp⟩
    | cons d u'' =>
      rcases ih (some c) (by simp) with ⟨e, he, hmem⟩
      exact ⟨e, he, List.mem_cons_of_mem c hmem⟩

/-- A word-bounded match cannot start at a position whose remaining text
starts with the block `b` when either the left boundary fails or `pat`
and `b` are prefix-incomparable. -/
theorem wordMatchAt_false_of_blocked (pat : List Char) (prev : Option Char)
    (b z : List Char)
    (h : noWordL prev = false ∨
      (pat.isPrefixOf b = false ∧ b.isPrefixOf pat = false)) :
    wordMatchAt pat prev (b ++ z) = false := by
  rcases h with h | ⟨hp, hb⟩
  · simp [wordMatchAt, h]
  · suffices hx : pat.isPrefixOf (b ++ z) = false by simp [wordMatchAt, hx]
    cases hx : pat.isPrefixOf (b ++ z) with
    | false => rfl
    | true =>
      exfalso
      have hc' : pat <+: b ++ z := pfxOf_iff.mp hx
      rcases pfx_comp hc' (pfx_app b z) with h' | h'
      · rw [pfxOf_iff.mpr h'] at hp; cases hp
      · rw [pfxOf_iff.mpr h'] at hb; cases hb

/-- `prevEnd` of a nonempty block ignores the incoming previous
character. -/
theorem prevEnd_ne_nil :
    ∀ (b : List Char) (p q : Option Char), b ≠ [] → prevEnd p b = prevEnd q b := by
  intro b
  induction b with
  | nil => intro p q h; cases h rfl
  | cons c b ih =>
    intro p q _
    cases b with
    | nil => rfl
    | cons d b' => exact ih (some c) (some c) (by simp)

/-- Copying an inert block: if every position inside `b` is blocked, the
scan copies `b` verbatim (consuming `b.length` fuel) whatever follows. -/
theorem subWordAux_copy_block (pat repl : List Char) :
    ∀ (b : List Char) (fuel : Nat) (prev : Option Char) (z : List Char),
      blockInert pat (noWordL prev) b = true → b.length ≤ fuel →
      subWordAux pat repl prev fuel (b ++ z) =
        b ++ subWordAux pat repl (prevEnd prev b) (fuel - b.length) z := by
  intro b
  induction b with
  | nil => intro fuel prev z _ _; simp [prevEnd]
  | cons c b ih =>
    intro fuel prev z hin hle
    cases fuel with
    | zero => simp at hle
    | succ n =>
      rw [blockInert] at hin
      rcases Bool.and_eq_true_iff.mp hin with ⟨hhead, hrest⟩
      have hcond : noWordL prev = false ∨
          (pat.isPrefixOf (c :: b) = false ∧ (c :: b).isPrefixOf pat = false) := by
        rcases Bool.or_eq_true_iff.mp hhead with h | h
        · left
          cases hw : noWordL prev with
          | false => rfl
          | true => rw [hw] at h; simp at h
        · rcases Bool.and_eq_true_iff.mp h with ⟨h1, h2⟩
          right
          constructor
          · cases hx : pat.isPrefixOf (c :: b) with
            | false => rfl
            | true => rw [hx] at h1; simp at h1
          · cases hx : (c :: b).isPrefixOf pat with
            | false => rfl
            | true => rw [hx] at h2; simp at h2
      have hnm := wordMatchAt_false_of_blocked pat prev (c :: b) z hcond
      have e : (c :: b) ++ z = c :: (b ++ z) := rfl
      rw [e] at hnm
      have hlen : b.length ≤ n := by simpa using hle
      have ihx := ih n (some c) z (by
        have hn : noWordL (some c) = !isWordChar c := rfl
        rw [hn]; exact hrest) hlen
      calc subWordAux pat repl prev (n + 1) ((c :: b) ++ z)
          = c :: subWordAux pat repl (some c) n (b ++ z) := by
            rw [e]; simp only [subWordAux, hnm, Bool.false_eq_true, if_false]
        _ = c :: (b ++ subWordAux pat repl (prevEnd (some c) b) (n - b.length) z) := by
            rw [ihx]
        _ = (c :: b) ++
              subWordAux pat repl (prevEnd prev (c :: b)) (n + 1 - (c :: b).length) z := by
            simp [prevEnd, Nat.succ_sub_succ]

/-- The head character (hence the right-boundary test) of the scan's
output agrees with the input when the left boundary is closed. -/
theorem bAfter_subWordAux (pat repl : List Char) (prev : Option Char)
    (fuel : Nat) (s : List Char) (h : noWordL prev = false) :
    bAfter (subWordAux pat repl prev fuel s) = bAfter s := by
  cases fuel with
  | zero => rfl
  | succ n =>
    cases s with
    | nil => rfl
    | cons c rest =>
      have hnm : wordMatchAt pat prev (c :: rest) = false := by
        simp [wordMatchAt, h]
      simp [subWordAux, hnm, bAfter]

/-- Reflection of an all-word-character prefix: if the left boundary is
closed, a prefix of the scan's output made of word characters (followed
by a right boundary) is already such a prefix of the input.  Matches
never fire inside the region because every previous character there is a
word character. -/
theorem subWordAux_word_prefix_reflect (pat repl : List Char) :
    ∀ (fuel : Nat) (q : List Char) (prev : Option Char) (s : List Char),
      q ≠ [] → (∀ c ∈ q, isWordChar c = true) → noWordL prev = false →
      q.isPrefixOf (subWordAux pat repl prev fuel s) = true →
      bAfter ((subWordAux pat repl prev fuel s).drop q.length) = true →
      q.isPrefixOf s = true ∧ bAfter (s.drop q.length) = true := by
  intro fuel
  induction fuel with
  | zero => intro q prev s _ _ _ hp hb; exact ⟨hp, hb⟩
  | succ n ih =>
    intro q prev s hq hqw hprev hp hb
    cases s with
    | nil =>
      cases q with
      | nil => cases hq rfl
      | cons qc q' => simp [subWordAux, List.isPrefixOf] at hp
    | cons c rest =>
      have hnm : wordMatchAt pat prev (c :: rest) = false := by
        simp [wordMatchAt, hprev]
      simp only [subWordAux, hnm, Bool.false_eq_true, if_false] at hp hb
      cases q with
      | nil => cases hq rfl
      | cons qc q' =>
        rw [List.isPrefixOf] at hp
        rcases Bool.and_eq_true_iff.mp hp with ⟨hqc, hq'⟩
        have hqc' : qc = c := by exact beq_iff_eq.mp hqc
        have hcw : isWordChar c = true := by
          rw [← hqc']; exact hqw qc (by simp)
        cases q' with
        | nil =>
          refine ⟨by simp [List.isPrefixOf, hqc], ?_⟩
          have := bAfter_subWordAux pat repl (some c) n rest
            (by simp [noWordL, hcw])
          simp only [List.length_cons, List.length_nil, Nat.zero_add,
            List.drop_succ_cons, List.drop_zero] at hb ⊢
          rw [← this]; exact hb
        | cons qd q'' =>
          have hrec := ih (qd :: q'') (some c) rest (by simp)
            (fun x hx => hqw x (by simp [hx]))
            (by simp [noWordL, hcw])
            hq'
            (by simpa using hb)
          refine ⟨by simp [List.isPrefixOf, hqc, hrec.1], by simpa using hrec.2⟩

/-- Master idempotence theorem for the word-bounded substitution: when
the pattern is a nonempty identifier (all word characters), the
replacement ends in a word character and scanning the replacement can
never fire a new match, a second scan leaves the first scan's output
unchanged. -/
theorem subWordAux_idem (pat repl : List Char)
    (hpne : pat ≠ []) (hpw : ∀ c ∈ pat, isWordChar c = true)
    (hrne : repl ≠ []) (hrlast : noWordL (prevEnd none repl) = false)
    (hinert : blockInert pat true repl = true) :
    ∀ (f₁ : Nat) (s : List Char) (prev prev' : Option Char) (f₂ : Nat),
      noWordL prev' = noWordL prev → s.length ≤ f₁ →
      (subWordAux pat repl prev f₁ s).length ≤ f₂ →
      subWordAux pat repl prev' f₂ (subWordAux pat repl prev f₁ s) =
        subWordAux pat repl prev f₁ s := by
  intro f₁
  induction f₁ with
  | zero =>
    intro s prev prev' f₂ _ hs _
    have : s = [] := List.length_eq_zero.mp (Nat.le_zero.mp hs)
    subst this
    cases f₂ <;> rfl
  | succ n ih =>
    intro s prev prev' f₂ hpr hs hf₂
    cases s with
    | nil => cases f₂ <;> rfl
    | cons c rest =>
      cases hm : wordMatchAt pat prev (c :: rest) with
      | true =>
        have hm' := hm
        rw [wordMatchAt] at hm'
        rcases Bool.and_eq_true_iff.mp hm' with ⟨hm1, hmAfter⟩
        rcases Bool.and_eq_true_iff.mp hm1 with ⟨hmPrev, hmPfx⟩
        have hpr' : noWordL prev' = true := by rw [hpr]; exact hmPrev
        have hpl : isWordChar (pat.getLastD c) = true := by
          apply hpw
          have hmem := List.getLastD_mem_cons pat c
          rcases List.mem_cons.mp hmem with h | h
          · rw [h]
            cases pat with
            | nil => cases hpne rfl
            | cons p ps =>
              rw [List.isPrefixOf] at hmPfx
              rcases Bool.and_eq_true_iff.mp hmPfx with ⟨hpc, _⟩
              exact List.mem_cons.mpr (Or.inl (beq_iff_eq.mp hpc).symm)
          · exact h
        simp only [subWordAux, hm, if_true] at hf₂ ⊢
        set inner := subWordAux pat repl (some (pat.getLastD c)) n
          (List.drop (pat.length - 1) rest) with hinner
        have hrl : repl.length ≤ f₂ := by
          have := List.length_append repl inner
          omega
        have hblock := subWordAux_copy_block pat repl repl f₂ prev' inner
          (by rw [hpr']; exact hinert) hrl
        rw [hblock]
        have hplen : (List.drop (pat.length - 1) rest).length ≤ n := by
          have h1 : (c :: rest).length ≤ n + 1 := hs
          simp only [List.length_cons] at h1
          simp only [List.length_drop]
          omega
        have hinlen : inner.length ≤ f₂ - repl.length := by
          have := List.length_append repl inner
          omega
        have hprEnd : noWordL (prevEnd prev' repl) = noWordL (some (pat.getLastD c)) := by
          rw [prevEnd_ne_nil repl prev' none hrne, hrlast]
          have e2 : noWordL (some (pat.getLastD c)) = !isWordChar (pat.getLastD c) := rfl
          rw [e2, hpl]
          rfl
        rw [ih (List.drop (pat.length - 1) rest) (some (pat.getLastD c))
          (prevEnd prev' repl) (f₂ - repl.length) hprEnd hplen hinlen]
      | false =>
        simp only [subWordAux, hm, Bool.false_eq_true, if_false] at hf₂ ⊢
        set inner := subWordAux pat repl (some c) n rest with hinner
        cases f₂ with
        | zero => simp at hf₂
        | succ m =>
          have hnm2 : wordMatchAt pat prev' (c :: inner) = false := by
            cases hx : wordMatchAt pat prev' (c :: inner) with
            | false => rfl
            | true =>
              exfalso
              rw [wordMatchAt] at hx
              rcases Bool.and_eq_true_iff.mp hx with ⟨hx1, hxAfter⟩
              rcases Bool.and_eq_true_iff.mp hx1 with ⟨hxPrev, hxPfx⟩
              have hprevT : noWordL prev = true := by rw [← hpr]; exact hxPrev
              cases pat with
              | nil => cases hpne rfl
              | cons p ps =>
                rw [List.isPrefixOf] at hxPfx
                rcases Bool.and_eq_true_iff.mp hxPfx with ⟨hpc, hps⟩
                have hpc' : p = c := beq_iff_eq.mp hpc
                have hcw : isWordChar c = true := by
                  rw [← hpc']; exact hpw p (List.mem_cons_self p ps)
                cases ps with
                | nil =>
                  have hba : bAfter inner = true := by simpa using hxAfter
                  have h2 := bAfter_subWordAux (p :: ([] : List Char)) repl (some c) n rest
                    (by simp [noWordL, hcw])
                  rw [← hinner] at h2
                  rw [h2] at hba
                  have hmm : wordMatchAt (p :: ([] : List Char)) prev (c :: rest) = true := by
                    simp [wordMatchAt, hprevT, List.isPrefixOf, hpc, hba]
                  rw [hmm] at hm
                  exact Bool.noConfusion hm
                | cons q qs =>
                  have hrec := subWordAux_word_prefix_reflect (p :: q :: qs) repl n (q :: qs)
                    (some c) rest (by simp)
                    (fun x hx2 => hpw x (List.mem_cons_of_mem p hx2))
                    (by simp [noWordL, hcw]) hps
                    (by simpa using hxAfter)
                  have hmm : wordMatchAt (p :: q :: qs) prev (c :: rest) = true := by
                    simp [wordMatchAt, hprevT, List.isPrefixOf, hpc, hrec.1]
                    simpa using hrec.2
                  rw [hmm] at hm
                  exact Bool.noConfusion hm
          simp only [subWordAux, hnm2, Bool.false_eq_true, if_false]
          have hinlen : inner.length ≤ m := by simpa using hf₂
          have hrlen : rest.length ≤ n := by simpa using hs
          rw [ih rest (some c) (some c) m rfl hrlen hinlen]

/-- `bAfter` of an append looks only at the nonempty first part. -/
theorem bAfter_append_ne {x : List Char} (t : List Char) (hx : x ≠ []) :
    bAfter (x ++ t) = bAfter x := by
  cases x with
  | nil => cases hx rfl
  | cons c x' => rfl

/-- Splitting a scan at a closed word boundary: if the text before the
junction ends in a non-word character (or is empty), no match can cross
the junction, so scanning `u ++ t` is scanning `u` on its own followed
by scanning `t`.  Fuel is the total length, as in the wrapper. -/
theorem subWordAux_append_split (pat repl : List Char)
    (hpne : pat ≠ []) (hpw : ∀ c ∈ pat, isWordChar c = true) :
    ∀ (fuel : Nat) (u : List Char) (prev : Option Char) (t : List Char),
      noWordL (prevEnd prev u) = true → u.length + t.length ≤ fuel →
      subWordAux pat repl prev fuel (u ++ t) =
        subWordAux pat repl prev u.length u ++
          subWordAux pat repl (prevEnd prev u) (fuel - u.length) t := by
  intro fuel
  induction fuel with
  | zero =>
    intro u prev t hEnd hlen
    have hu : u = [] := List.length_eq_zero.mp (by omega)
    subst hu
    simp [subWordAux, prevEnd]
  | succ n ih =>
    intro u prev t hEnd hlen
    cases u with
    | nil => simp [subWordAux, prevEnd]
    | cons c u' =>
      have hwordu : (c :: u') ⊆ pat → False := by
        intro hsub
        rcases prevEnd_mem (c :: u') prev (by simp) with ⟨d, hd, hdm⟩
        have : isWordChar d = true := hpw d (hsub hdm)
        rw [hd] at hEnd
        simp [noWordL, this] at hEnd
      have e : (c :: u') ++ t = c :: (u' ++ t) := rfl
      cases hm : wordMatchAt pat prev (c :: (u' ++ t)) with
      | true =>
        have hm' := hm
        rw [wordMatchAt] at hm'
        rcases Bool.and_eq_true_iff.mp hm' with ⟨hm1, hmAfter⟩
        rcases Bool.and_eq_true_iff.mp hm1 with ⟨hmPrev, hmPfx⟩
        have hmP : pat <+: (c :: u') ++ t := by
          rw [e]; exact pfxOf_iff.mp hmPfx
        have hlt : pat.length < (c :: u').length := by
          rcases Nat.lt_or_ge pat.length (c :: u').length with h | h
          · exact h
          · exfalso
            rcases pfx_comp hmP (pfx_app (c :: u') t) with h' | h'
            · rcases Nat.eq_or_lt_of_le h'.length_le with he | hl2
              · exact hwordu ((h'.eq_of_length (Nat.le_antisymm h'.length_le h)).symm ▸
                  List.Subset.refl pat)
              · omega
            · exact hwordu h'.subset
        have hpfxu : pat <+: c :: u' := pfx_of_append_le hmP (Nat.le_of_lt hlt)
        have hdropne : List.drop pat.length (c :: u') ≠ [] := by
          intro hnil
          have := List.drop_eq_nil_iff.mp hnil
          simp only [List.length_cons] at this hlt
          omega
        have hAfterU : bAfter (List.drop pat.length (c :: u')) = true := by
          have e2 : List.drop pat.length ((c :: u') ++ t) =
              List.drop pat.length (c :: u') ++ t :=
            drop_append_le t (Nat.le_of_lt hlt)
          rw [e] at e2
          rw [e2, bAfter_append_ne t hdropne] at hmAfter
          exact hmAfter
        have hmu : wordMatchAt pat prev (c :: u') = true := by
          rw [wordMatchAt, hmPrev, pfxOf_iff.mpr hpfxu, hAfterU]
          rfl
        have hlen' : pat.length - 1 < u'.length := by
          have h1 : 1 ≤ pat.length := by
            cases pat with
            | nil => cases hpne rfl
            | cons _ _ => simp
          simp only [List.length_cons] at hlt
          omega
        have hdropne' : List.drop (pat.length - 1) u' ≠ [] := by
          intro hnil
          have := List.drop_eq_nil_iff.mp hnil
          omega
        -- rewrite the end-hypothesis for the recursive call
        have hEnd' : noWordL (prevEnd (some (pat.getLastD c))
            (List.drop (pat.length - 1) u')) = true := by
          have e3 : c :: u' =
              (c :: List.take (pat.length - 1) u') ++ List.drop (pat.length - 1) u' := by
            rw [List.cons_append, List.take_append_drop]
          rw [e3, prevEnd_append] at hEnd
          rw [prevEnd_ne_nil (List.drop (pat.length - 1) u') _
            (prevEnd prev (c :: List.take (pat.length - 1) u')) hdropne']
          exact hEnd
        have hlen2 : (List.drop (pat.length - 1) u').length + t.length ≤ n := by
          simp only [List.length_cons] at hlen
          simp only [List.length_drop]
          omega
        have hIH := ih (List.drop (pat.length - 1) u') (some (pat.getLastD c)) t hEnd' hlen2
        -- evaluate both scans one step
        rw [e]
        simp only [subWordAux, hm, hmu, if_true, List.length_cons]
        have e4 : List.drop (pat.length - 1) (u' ++ t) =
            List.drop (pat.length - 1) u' ++ t :=
          drop_append_le t (Nat.le_of_lt hlen')
        rw [e4, hIH]
        rw [List.append_assoc]
        congr 1
        congr 1
        · exact subWordAux_fuel pat repl (List.drop (pat.length - 1) u').length
            u'.length (some (pat.getLastD c)) _
            (Nat.le_refl _) (by simp only [List.length_drop]; omega)
        · have e5 : prevEnd prev (c :: u') =
              prevEnd (prevEnd prev (c :: List.take (pat.length - 1) u'))
                (List.drop (pat.length - 1) u') := by
            conv =>
              lhs
              rw [show c :: u' =
                (c :: List.take (pat.length - 1) u') ++ List.drop (pat.length - 1) u' by
                rw [List.cons_append, List.take_append_drop]]
            rw [prevEnd_append]
          rw [prevEnd_ne_nil (List.drop (pat.length - 1) u')
            (some (pat.getLastD c)) (prevEnd prev (c :: List.take (pat.length - 1) u'))
            hdropne', ← e5]
          exact subWordAux_fuel pat repl (n - (List.drop (pat.length - 1) u').length)
            (n + 1 - (u'.length + 1)) _ t
            (by simp only [List.length_drop]; simp only [List.length_cons] at hlen; omega)
            (by simp only [List.length_cons] at hlen; omega)
      | false =>
        have hmu : wordMatchAt pat prev (c :: u') = false := by
          cases hx : wordMatchAt pat prev (c :: u') with
          | false => rfl
          | true =>
            exfalso
            rw [wordMatchAt] at hx
            rcases Bool.and_eq_true_iff.mp hx with ⟨hx1, hxAfter⟩
            rcases Bool.and_eq_true_iff.mp hx1 with ⟨hxPrev, hxPfx⟩
            have hpfxu : pat <+: c :: u' := pfxOf_iff.mp hxPfx
            have hdropne : List.drop pat.length (c :: u') ≠ [] := by
              intro hnil
              have hle := List.drop_eq_nil_iff.mp hnil
              have := hpfxu.eq_of_length (Nat.le_antisymm hpfxu.length_le hle)
              exact hwordu (this ▸ List.Subset.refl pat)
            have hmc : wordMatchAt pat prev (c :: (u' ++ t)) = true := by
              rw [wordMatchAt, hxPrev]
              have hP : pat <+: c :: (u' ++ t) := by
                rw [← e]
                exact hpfxu.trans (pfx_app (c :: u') t)
              rw [pfxOf_iff.mpr hP]
              have e2 : List.drop pat.length ((c :: u') ++ t) =
                  List.drop pat.length (c :: u') ++ t :=
                drop_append_le t hpfxu.length_le
              rw [← e, e2, bAfter_append_ne t hdropne, hxAfter]
              rfl
            rw [hmc] at hm
            exact Bool.noConfusion hm
        rw [e]
        simp only [subWordAux, hm, hmu, Bool.false_eq_true, if_false]
        have hIH := ih u' (some c) t hEnd (by
          simp only [List.length_cons] at hlen; omega)
        rw [hIH]
        simp only [List.cons_append, List.length_cons]
        rw [Nat.succ_sub_succ]
        rfl

/-- A literal match cannot start where the remaining text begins with a
block prefix-incomparable with the pattern. -/
theorem litMatchAt_false_of_blocked (pat : List Char) (b z : List Char)
    (hp : pat.isPrefixOf b = false) (hb : b.isPrefixOf pat = false) :
    pat.isPrefixOf (b ++ z) = false := by
  cases hx : pat.isPrefixOf (b ++ z) with
  | false => rfl
  | true =>
    exfalso
    rcases pfx_comp (pfxOf_iff.mp hx) (pfx_app b z) with h' | h'
    · rw [pfxOf_iff.mpr h'] at hp; cases hp
    · rw [pfxOf_iff.mpr h'] at hb; cases hb

/-- Copying a literally-inert block: the literal scan copies `b`
verbatim whatever follows. -/
theorem replaceAllAux_copy_block (pat repl : List Char) :
    ∀ (b : List Char) (fuel : Nat) (z : List Char),
      litInert pat b = true → b.length ≤ fuel →
      replaceAllAux pat repl fuel (b ++ z) =
        b ++ replaceAllAux pat repl (fuel - b.length) z := by
  intro b
  induction b with
  | nil => intro fuel z _ _; simp
  | cons c b ih =>
    intro fuel z hin hle
    cases fuel with
    | zero => simp at hle
    | succ n =>
      rw [litInert] at hin
      rcases Bool.and_eq_true_iff.mp hin with ⟨hhead, hrest⟩
      rcases Bool.and_eq_true_iff.mp hhead with ⟨h1, h2⟩
      have hp : pat.isPrefixOf (c :: b) = false := by
        cases hx : pat.isPrefixOf (c :: b) with
        | false => rfl
        | true => rw [hx] at h1; simp at h1
      have hb2 : (c :: b).isPrefixOf pat = false := by
        cases hx : (c :: b).isPrefixOf pat with
        | false => rfl
        | true => rw [hx] at h2; simp at h2
      have hnm := litMatchAt_false_of_blocked pat (c :: b) z hp hb2
      have e : (c :: b) ++ z = c :: (b ++ z) := rfl
      rw [e] at hnm
      rw [e]
      simp only [replaceAllAux, hnm, Bool.false_eq_true, if_false]
      rw [ih n z hrest (by simpa using hle)]
      simp [Nat.succ_sub_succ]

/-- Scanning a block that ends in a non-word character keeps that
property: the output is nonempty and also ends in a non-word character
(a match can never consume the block's final character, which would have
to be a word character). -/
theorem subWordAux_keeps_end (pat repl : List Char)
    (hpne : pat ≠ []) (hpw : ∀ c ∈ pat, isWordChar c = true) :
    ∀ (fuel : Nat) (u : List Char) (prev : Option Char),
      u ≠ [] → noWordL (prevEnd prev u) = true →
      subWordAux pat repl prev fuel u ≠ [] ∧
      ∀ q, noWordL (prevEnd q (subWordAux pat repl prev fuel u)) = true := by
  intro fuel
  induction fuel with
  | zero =>
    intro u prev hne hEnd
    refine ⟨hne, fun q => ?_⟩
    show noWordL (prevEnd q u) = true
    rw [prevEnd_ne_nil u q prev hne]
    exact hEnd
  | succ n ih =>
    intro u prev hne hEnd
    cases u with
    | nil => cases hne rfl
    | cons c u' =>
      have hwordu : (c :: u') ⊆ pat → False := by
        intro hsub
        rcases prevEnd_mem (c :: u') prev (by simp) with ⟨d, hd, hdm⟩
        have : isWordChar d = true := hpw d (hsub hdm)
        rw [hd] at hEnd
        simp [noWordL, this] at hEnd
      cases hm : wordMatchAt pat prev (c :: u') with
      | true =>
        have hm' := hm
        rw [wordMatchAt] at hm'
        rcases Bool.and_eq_true_iff.mp hm' with ⟨hm1, _⟩
        rcases Bool.and_eq_true_iff.mp hm1 with ⟨_, hmPfx⟩
        have hpfxu := pfxOf_iff.mp hmPfx
        have hlt : pat.length < (c :: u').length := by
          rcases Nat.lt_or_ge pat.length (c :: u').length with h | h
          · exact h
          · exfalso
            have he := hpfxu.eq_of_length (Nat.le_antisymm hpfxu.length_le h)
            exact hwordu (he ▸ List.Subset.refl pat)
        have h1le : 1 ≤ pat.length := by
          cases pat with
          | nil => cases hpne rfl
          | cons _ _ => simp
        have hdne : List.drop (pat.length - 1) u' ≠ [] := by
          intro hnil
          have := List.drop_eq_nil_iff.mp hnil
          simp only [List.length_cons] at hlt
          omega
        have hEnd' : noWordL (prevEnd (some (pat.getLastD c))
            (List.drop (pat.length - 1) u')) = true := by
          have e3 : c :: u' =
              (c :: List.take (pat.length - 1) u') ++ List.drop (pat.length - 1) u' := by
            rw [List.cons_append, List.take_append_drop]
          rw [e3, prevEnd_append] at hEnd
          rw [prevEnd_ne_nil (List.drop (pat.length - 1) u') _
            (prevEnd prev (c :: List.take (pat.length - 1) u')) hdne]
          exact hEnd
        obtain ⟨hne2, hq⟩ := ih (List.drop (pat.length - 1) u')
          (some (pat.getLastD c)) hdne hEnd'
        constructor
        · simp only [subWordAux, hm, if_true]
          intro hcontra
          exact hne2 (List.append_eq_nil.mp hcontra).2
        · intro q
          simp only [subWordAux, hm, if_true]
          rw [prevEnd_append]
          exact hq _
      | false =>
        cases u' with
        | nil =>
          have hz : subWordAux pat repl (some c) n [] = [] := by cases n <;> rfl
          constructor
          · simp only [subWordAux, hm, Bool.false_eq_true, if_false]
            simp
          · intro q
            simp only [subWordAux, hm, Bool.false_eq_true, if_false, hz]
            exact hEnd
        | cons d u'' =>
          obtain ⟨hne2, hq⟩ := ih (d :: u'') (some c) (by simp) hEnd
          constructor
          · simp only [subWordAux, hm, Bool.false_eq_true, if_false]
            simp
          · intro q
            simp only [subWordAux, hm, Bool.false_eq_true, if_false]
            exact hq (some c)

/-- If the scan's output is a tail of the fixed text `A`, in which the
replacement never occurs, then no replacement was made and the input
already was that tail of `A`. -/
theorem subWordAux_eq_drop_reflect (pat repl A : List Char)
    (hrne : repl ≠ [])
    (hA : ∀ k, k ≤ A.length → repl.isPrefixOf (A.drop k) = false) :
    ∀ (fuel : Nat) (k : Nat) (u : List Char) (prev : Option Char),
      subWordAux pat repl prev fuel u = A.drop k → u = A.drop k := by
  intro fuel
  induction fuel with
  | zero => intro k u prev h; exact h
  | succ n ih =>
    intro k u prev h
    cases u with
    | nil => exact h
    | cons c rest =>
      cases hm : wordMatchAt pat prev (c :: rest) with
      | true =>
        exfalso
        simp only [subWordAux, hm, if_true] at h
        have hpfx : repl.isPrefixOf (A.drop k) = true := by
          rw [← h]; exact pfxOf_iff.mpr (pfx_app repl _)
        rcases le_or_lt k A.length with hk | hk
        · rw [hA k hk] at hpfx; cases hpfx
        · rw [List.drop_eq_nil_of_le (Nat.le_of_lt hk)] at hpfx
          cases hr : repl with
          | nil => exact hrne hr
          | cons r rs => rw [hr] at hpfx; simp [List.isPrefixOf] at hpfx
      | false =>
        simp only [subWordAux, hm, Bool.false_eq_true, if_false] at h
        have htail : subWordAux pat repl (some c) n rest = A.drop (k + 1) := by
          have h2 := congrArg List.tail h
          rw [List.tail_cons, List.tail_drop] at h2
          exact h2
        have hrest := ih (k + 1) rest (some c) htail
        have e2 : A.drop k = c :: A.drop (k + 1) := by
          rw [← htail]; exact h.symm
        rw [hrest, e2]

/-- Suffix reflection through the scan: if the fixed text `A` contains
no part of the replacement (no replacement suffix starts `A`, and the
replacement starts nowhere inside `A`), then `A` appearing as a suffix
of the output means it was already a suffix of the input. -/
theorem subWordAux_suffix_reflect (pat repl A : List Char)
    (hrne : repl ≠ [])
    (hAp : ∀ j, j < repl.length → (repl.drop j).isPrefixOf A = false)
    (hA : ∀ k, k ≤ A.length → repl.isPrefixOf (A.drop k) = false) :
    ∀ (fuel : Nat) (u : List Char) (prev : Option Char),
      A <:+ subWordAux pat repl prev fuel u → A <:+ u := by
  intro fuel
  induction fuel with
  | zero => intro u prev h; exact h
  | succ n ih =>
    intro u prev h
    cases u with
    | nil => exact h
    | cons c rest =>
      cases hm : wordMatchAt pat prev (c :: rest) with
      | true =>
        simp only [subWordAux, hm, if_true] at h
        rcases h with ⟨t, ht⟩
        rcases le_or_lt repl.length t.length with hl | hl
        · have ht2 : t.take repl.length ++ (t.drop repl.length ++ A) =
              repl ++ subWordAux pat repl (some (pat.getLastD c)) n
                (List.drop (pat.length - 1) rest) := by
            rw [← List.append_assoc, List.take_append_drop]
            exact ht
          have hinj := List.append_inj ht2 (by rw [List.length_take]; omega)
          have hS : A <:+ subWordAux pat repl (some (pat.getLastD c)) n
              (List.drop (pat.length - 1) rest) := ⟨t.drop repl.length, hinj.2⟩
          exact (ih _ (some (pat.getLastD c)) hS).trans
            ((List.drop_suffix _ _).trans (List.suffix_cons c rest))
        · exfalso
          have ht2 : repl.take t.length ++ (repl.drop t.length ++
              subWordAux pat repl (some (pat.getLastD c)) n
                (List.drop (pat.length - 1) rest)) = t ++ A := by
            rw [← List.append_assoc, List.take_append_drop]
            exact ht.symm
          have hinj := List.append_inj ht2 (by rw [List.length_take]; omega)
          have hpf : (repl.drop t.length).isPrefixOf A = true :=
            pfxOf_iff.mpr ⟨_, hinj.2⟩
          rw [hAp t.length hl] at hpf
          cases hpf
      | false =>
        simp only [subWordAux, hm, Bool.false_eq_true, if_false] at h
        rcases List.suffix_cons_iff.mp h with he | hs
        · have hS : subWordAux pat repl (some c) n rest = A.drop 1 := by
            rw [he]
            simp
          have hrest := subWordAux_eq_drop_reflect pat repl A hrne hA n 1 rest (some c) hS
          have hSrw : subWordAux pat repl (some c) n rest = rest := by
            rw [hS, ← hrest]
          rw [he, hSrw]
        · exact (ih rest (some c) hs).trans (List.suffix_cons c rest)

/-- Prefix reflection through the scan: a tail of the fixed text `B`
(prefix-incomparable with the replacement at every position) that
prefixes the output already prefixes the input. -/
theorem subWordAux_prefix_reflect (pat repl B : List Char)
    (hB : ∀ t, t < B.length →
      (B.drop t).isPrefixOf repl = false ∧ repl.isPrefixOf (B.drop t) = false) :
    ∀ (fuel : Nat) (t : Nat) (v : List Char) (prev : Option Char),
      (B.drop t).isPrefixOf (subWordAux pat repl prev fuel v) = true →
      (B.drop t).isPrefixOf v = true := by
  intro fuel
  induction fuel with
  | zero => intro t v prev h; exact h
  | succ n ih =>
    intro t v prev h
    rcases le_or_lt B.length t with ht | ht
    · rw [List.drop_eq_nil_of_le ht]
      cases v <;> rfl
    · cases v with
      | nil => exact h
      | cons c rest =>
        cases hm : wordMatchAt pat prev (c :: rest) with
        | true =>
          exfalso
          simp only [subWordAux, hm, if_true] at h
          rcases pfx_comp (pfxOf_iff.mp h) (pfx_app repl _) with h' | h'
          · have h2 := pfxOf_iff.mpr h'
            rw [(hB t ht).1] at h2
            cases h2
          · have h2 := pfxOf_iff.mpr h'
            rw [(hB t ht).2] at h2
            cases h2
        | false =>
          simp only [subWordAux, hm, Bool.false_eq_true, if_false] at h
          cases hd : B.drop t with
          | nil => rfl
          | cons q q' =>
            rw [hd] at h
            have h2 : (q == c && q'.isPrefixOf (subWordAux pat repl (some c) n rest)) =
                true := h
            rcases Bool.and_eq_true_iff.mp h2 with ⟨hqc, hq'⟩
            have hq'd : q' = B.drop (t + 1) := by
              have h3 := List.tail_drop B t
              rw [hd, List.tail_cons] at h3
              exact h3
            rw [hq'd] at hq'
            have hrec := ih (t + 1) rest (some c) hq'
            rw [← hq'd] at hrec
            show (q == c && q'.isPrefixOf rest) = true
            rw [hqc, hrec]
            rfl

/-- A word-bounded rule scans `u ++ fragColor ++ v` compositionally when
the occurrence of `fragColor` is standalone on the left and the rule's
pattern cannot fire inside `fragColor`: the output is the scan of `u`,
then `fragColor` verbatim, then the scan of `v`. -/
theorem subWord_occ (pat repl : List Char)
    (hpne : pat ≠ []) (hpw : ∀ c ∈ pat, isWordChar c = true)
    (hinert : blockInert pat true fragColorId = true)
    (u v : List Char) (hu : noWordL (prevEnd none u) = true) :
    subWord pat repl (u ++ fragColorId ++ v) =
      subWordAux pat repl none u.length u ++
        (fragColorId ++ subWordAux pat repl (prevEnd none fragColorId) v.length v) := by
  unfold subWord
  rw [List.append_assoc]
  have hsplit := subWordAux_append_split pat repl hpne hpw
    (u ++ (fragColorId ++ v)).length u none (fragColorId ++ v) hu
    (by simp [List.length_append])
  rw [hsplit]
  congr 1
  have h9 : fragColorId.length ≤ (u ++ (fragColorId ++ v)).length - u.length := by
    simp [List.length_append]
  have hblock := subWordAux_copy_block pat repl fragColorId
    ((u ++ (fragColorId ++ v)).length - u.length) (prevEnd none u) v
    (by rw [hu]; exact hinert) h9
  rw [hblock]
  congr 1
  rw [prevEnd_ne_nil fragColorId (prevEnd none u) none (by decide)]
  have efuel : (u ++ (fragColorId ++ v)).length - u.length - fragColorId.length =
      v.length := by
    simp only [List.length_append]
    omega
  rw [efuel]

/-- The literal rule keeps a non-word head character: the phrase starts
with a word character, so it cannot match there, and the head is
copied. -/
theorem bAfter_replaceAll_phrase :
    ∀ (fuel : Nat) (v : List Char), bAfter v = true →
      bAfter (replaceAllAux phrase replVoidMain fuel v) = true := by
  intro fuel v hv
  cases fuel with
  | zero => exact hv
  | succ n =>
    cases v with
    | nil => exact hv
    | cons c rest =>
      have hcw : isWordChar c = false := by
        have : bAfter (c :: rest) = !isWordChar c := rfl
        rw [this] at hv
        cases hx : isWordChar c with
        | false => rfl
        | true => rw [hx] at hv; cases hv
      have hnm : phrase.isPrefixOf (c :: rest) = false := by
        have e : phrase.isPrefixOf (c :: rest) =
            (('v' == c) && (phrase.drop 1).isPrefixOf rest) := rfl
        rw [e]
        have : ('v' == c) = false := by
          cases hx : 'v' == c with
          | false => rfl
          | true =>
            exfalso
            have := beq_iff_eq.mp hx
            rw [← this] at hcw
            cases hcw
        rw [this]
        rfl
      simp only [replaceAllAux, hnm, Bool.false_eq_true, if_false]
      show (!isWordChar c) = true
      rw [hcw]
      rfl

/-- The literal rule on `u ++ fragColor ++ v` when this `fragColor`
occurrence is outside any occurrence of the rule's phrase (`u` does not
end with the phrase's first 25 characters with `v` continuing it): the
occurrence is copied, the part before it rewrites to some `u'` that
still ends at a word boundary, and the part after it is scanned
independently. -/
theorem replaceAll_occ :
    ∀ (fuel : Nat) (u v : List Char),
      u.length + fragColorId.length + v.length ≤ fuel →
      noWordL (prevEnd none u) = true →
      ¬((phrase.take 25 <:+ u) ∧ (phrase.drop 34 <+: v)) →
      ∃ u' f', replaceAllAux phrase replVoidMain fuel (u ++ fragColorId ++ v) =
          u' ++ fragColorId ++ replaceAllAux phrase replVoidMain f' v ∧
        noWordL (prevEnd none u') = true ∧ (u' = [] → u = []) := by
  intro fuel
  induction fuel with
  | zero =>
    intro u v hlen _ _
    exfalso
    have h9 : fragColorId.length = 9 := by decide
    omega
  | succ n ih =>
    intro u v hlen hEnd hOuts
    cases u with
    | nil =>
      have h9 : fragColorId.length = 9 := by decide
      have hblock := replaceAllAux_copy_block phrase replVoidMain fragColorId (n + 1) v
        (by decide) (by omega)
      exact ⟨[], n + 1 - fragColorId.length, hblock, rfl, fun _ => rfl⟩
    | cons c u₂ =>
      have e : (c :: u₂) ++ fragColorId ++ v = c :: (u₂ ++ fragColorId ++ v) := by
        simp
      cases hm : phrase.isPrefixOf (c :: (u₂ ++ fragColorId ++ v)) with
      | true =>
        have hP : phrase <+: (c :: u₂) ++ (fragColorId ++ v) := by
          rw [← List.append_assoc, e]
          exact pfxOf_iff.mp hm
        rcases le_or_lt phrase.length (c :: u₂).length with hle | hgt
        · -- the phrase match lies entirely inside u
          have hle2 : phrase.length - 1 ≤ u₂.length := by
            simp only [List.length_cons] at hle
            omega
          have edrop : List.drop (phrase.length - 1) (u₂ ++ fragColorId ++ v) =
              List.drop (phrase.length - 1) u₂ ++ fragColorId ++ v := by
            rw [List.append_assoc, drop_append_le (fragColorId ++ v) hle2,
              ← List.append_assoc]
          have hEnd' : noWordL (prevEnd none (List.drop (phrase.length - 1) u₂)) = true := by
            cases hdn : List.drop (phrase.length - 1) u₂ with
            | nil => rfl
            | cons d dd =>
              rw [← hdn]
              have e3 : c :: u₂ = (c :: List.take (phrase.length - 1) u₂) ++
                  List.drop (phrase.length - 1) u₂ := by
                rw [List.cons_append, List.take_append_drop]
              rw [e3, prevEnd_append] at hEnd
              rw [prevEnd_ne_nil (List.drop (phrase.length - 1) u₂) none
                (prevEnd none (c :: List.take (phrase.length - 1) u₂))
                (by rw [hdn]; simp)]
              exact hEnd
          have hOuts' : ¬((phrase.take 25 <:+ List.drop (phrase.length - 1) u₂) ∧
              (phrase.drop 34 <+: v)) := by
            intro hand
            exact hOuts ⟨hand.1.trans ((List.drop_suffix _ _).trans
              (List.suffix_cons c u₂)), hand.2⟩
          have hlen' : (List.drop (phrase.length - 1) u₂).length +
              fragColorId.length + v.length ≤ n := by
            have h1 : 1 ≤ phrase.length := by decide
            simp only [List.length_cons] at hlen
            simp only [List.length_drop]
            omega
          obtain ⟨u', f', heq, hend2, _⟩ :=
            ih (List.drop (phrase.length - 1) u₂) v hlen' hEnd' hOuts'
          refine ⟨replVoidMain ++ u', f', ?_, ?_, ?_⟩
          · rw [e]
            simp only [replaceAllAux, hm, if_true]
            rw [edrop, heq]
            simp [List.append_assoc]
          · cases u' with
            | nil =>
              simp only [List.append_nil]
              decide
            | cons x xs =>
              rw [prevEnd_append,
                prevEnd_ne_nil (x :: xs) (prevEnd none replVoidMain) none (by simp)]
              exact hend2
          · intro hcontra
            have := (List.append_eq_nil.mp hcontra).1
            exact absurd this (by decide)
        · -- the phrase match would swallow the occurrence: contradicts outside-ness
          exfalso
          have hupfx : (c :: u₂) <+: phrase := by
            rcases pfx_comp (pfx_app (c :: u₂) (fragColorId ++ v)) hP with h' | h'
            · exact h'
            · exfalso
              have := h'.length_le
              omega
          rcases hupfx with ⟨r, hr⟩
          rcases hP with ⟨t, ht⟩
          rw [← hr, List.append_assoc] at ht
          have hrt : r ++ t = fragColorId ++ v := List.append_cancel_left ht
          have hrdrop : r = phrase.drop (c :: u₂).length := by
            rw [← hr, List.drop_left]
          rcases pfx_comp (⟨t, hrt⟩ : r <+: fragColorId ++ v)
              (pfx_app fragColorId v) with h' | h'
          · have hbad : (phrase.drop (c :: u₂).length).isPrefixOf fragColorId = true := by
              rw [← hrdrop]
              exact pfxOf_iff.mpr h'
            have hno1 : ∀ t2, t2 < phrase.length → 0 < t2 →
                (phrase.drop t2).isPrefixOf fragColorId = false := by decide
            rw [hno1 (c :: u₂).length hgt (by simp)] at hbad
            cases hbad
          · have hfc : fragColorId.isPrefixOf (phrase.drop (c :: u₂).length) = true := by
              rw [← hrdrop]
              exact pfxOf_iff.mpr h'
            have hno2 : ∀ t2, t2 < phrase.length → ¬(t2 = 25) →
                fragColorId.isPrefixOf (phrase.drop t2) = false := by decide
            have h25 : (c :: u₂).length = 25 := by
              by_contra hne25
              rw [hno2 _ hgt hne25] at hfc
              cases hfc
            have hu25 : (c :: u₂) = phrase.take 25 := by
              rw [← h25, ← hr, List.take_left]
            rcases h' with ⟨r₂, hr₂⟩
            have e34 : r₂ = phrase.drop 34 := by
              have hdr : r.drop fragColorId.length = r₂ := by
                rw [← hr₂, List.drop_left]
              rw [hrdrop, List.drop_drop, h25] at hdr
              have h9 : fragColorId.length = 9 := by decide
              rw [h9] at hdr
              exact hdr.symm
            have hv : phrase.drop 34 <+: v := by
              rw [← e34]
              refine ⟨t, ?_⟩
              rw [← hr₂, List.append_assoc] at hrt
              exact List.append_cancel_left hrt
            exact hOuts ⟨hu25 ▸ List.suffix_refl (c :: u₂), hv⟩
      | false =>
        have hEnd' : noWordL (prevEnd none u₂) = true := by
          cases hu₂ : u₂ with
          | nil => rfl
          | cons d dd =>
            rw [← hu₂]
            rw [prevEnd_ne_nil u₂ none (some c) (by rw [hu₂]; simp)]
            exact hEnd
        have hOuts' : ¬((phrase.take 25 <:+ u₂) ∧ (phrase.drop 34 <+: v)) := by
          intro hand
          exact hOuts ⟨hand.1.trans (List.suffix_cons c u₂), hand.2⟩
        have hlen' : u₂.length + fragColorId.length + v.length ≤ n := by
          simp only [List.length_cons] at hlen
          omega
        obtain ⟨u', f', heq, hend2, hnil2⟩ := ih u₂ v hlen' hEnd' hOuts'
        refine ⟨c :: u', f', ?_, ?_, by simp⟩
        · rw [e]
          simp only [replaceAllAux, hm, Bool.false_eq_true, if_false]
          rw [heq]
          simp [List.append_assoc]
        · cases u' with
          | nil =>
            have hu₂nil := hnil2 rfl
            subst hu₂nil
            exact hEnd
          | cons x xs =>
            show noWordL (prevEnd (some c) (x :: xs)) = true
            rw [prevEnd_ne_nil (x :: xs) (some c) none (by simp)]
            exact hend2

/-- Packaged form of `subWord_occ`: a word-bounded rule preserves a
standalone `fragColor` occurrence, keeps its boundaries, and supports
suffix/prefix reflection of fixed texts through the rewritten
surroundings. -/
theorem subWord_occ_full (pat repl : List Char)
    (hpne : pat ≠ []) (hpw : ∀ c ∈ pat, isWordChar c = true)
    (hinert : blockInert pat true fragColorId = true)
    (u v : List Char) (hu : noWordL (prevEnd none u) = true) (hv : bAfter v = true) :
    ∃ u' v', subWord pat repl (u ++ fragColorId ++ v) = u' ++ fragColorId ++ v' ∧
      noWordL (prevEnd none u') = true ∧ bAfter v' = true ∧
      (∀ A : List Char, repl ≠ [] →
        (∀ j, j < repl.length → (repl.drop j).isPrefixOf A = false) →
        (∀ k, k ≤ A.length → repl.isPrefixOf (A.drop k) = false) →
        A <:+ u' → A <:+ u) ∧
      (∀ B : List Char,
        (∀ t, t < B.length → (B.drop t).isPrefixOf repl = false ∧
          repl.isPrefixOf (B.drop t) = false) →
        B <+: v' → B <+: v) := by
  have hfcp : noWordL (prevEnd none fragColorId) = false := by decide
  refine ⟨subWordAux pat repl none u.length u,
    subWordAux pat repl (prevEnd none fragColorId) v.length v, ?_, ?_, ?_, ?_, ?_⟩
  · rw [subWord_occ pat repl hpne hpw hinert u v hu, List.append_assoc]
  · cases hcu : u with
    | nil => rfl
    | cons c u₂ =>
      rw [← hcu]
      exact (subWordAux_keeps_end pat repl hpne hpw u.length u none
        (by rw [hcu]; simp) hu).2 none
  · rw [bAfter_subWordAux pat repl (prevEnd none fragColorId) v.length v hfcp]
    exact hv
  · intro A hrne hAp hA hsuf
    exact subWordAux_suffix_reflect pat repl A hrne hAp hA u.length u none hsuf
  · intro B hB hpre
    have h0 := subWordAux_prefix_reflect pat repl B hB v.length 0 v
      (prevEnd none fragColorId)
    rw [List.drop_zero] at h0
    exact pfxOf_iff.mp (h0 (pfxOf_iff.mpr hpre))

/-- If `s` has no word-bounded occurrence of `pat`, the scan copies `s`
unchanged (any fuel: with fuel exhausted it is the identity anyway). -/
theorem subWordAux_id_of_no_occ (pat repl : List Char) :
    ∀ (fuel : Nat) (prev : Option Char) (s : List Char),
      hasWordOcc pat prev s = false → subWordAux pat repl prev fuel s = s := by
  intro fuel
  induction fuel with
  | zero => intro prev s _; rfl
  | succ n ih =>
    intro prev s h
    cases s with
    | nil => rfl
    | cons c rest =>
      rw [hasWordOcc] at h
      rcases Bool.or_eq_false_iff.mp h with ⟨h1, h2⟩
      simp only [subWordAux, h1, Bool.false_eq_true, if_false, ih (some c) rest h2]

/-- If `s` has no substring occurrence of `pat`, the literal scan copies
`s` unchanged. -/
theorem replaceAllAux_id_of_no_occ (pat repl : List Char) :
    ∀ (fuel : Nat) (s : List Char),
      hasLitOcc pat s = false → replaceAllAux pat repl fuel s = s := by
  intro fuel
  induction fuel with
  | zero => intro s _; rfl
  | succ n ih =>
    intro s h
    cases s with
    | nil => rfl
    | cons c rest =>
      rw [hasLitOcc] at h
      rcases Bool.or_eq_false_iff.mp h with ⟨h1, h2⟩
      simp only [replaceAllAux, h1, Bool.false_eq_true, if_false, ih rest h2]

/-- An all-word-character block whose left boundary is already open (the
previous character is a word character) is inert for any word-bounded
pattern. -/
theorem blockInert_false_of_allword (pat : List Char) :
    ∀ b : List Char, (∀ c ∈ b, isWordChar c = true) →
      blockInert pat false b = true := by
  intro b
  induction b with
  | nil => intro _; rfl
  | cons c b ih =>
    intro hb
    rw [blockInert]
    have hc : isWordChar c = true := hb c (by simp)
    rw [hc]
    simp only [Bool.not_false, Bool.true_or, Bool.true_and, Bool.not_true]
    exact ih (fun x hx => hb x (List.mem_cons_of_mem c hx))

/-- `prevEnd` of a nonempty list is its last character. -/
theorem prevEnd_eq_getLastD :
    ∀ (u : List Char) (c : Char) (prev : Option Char),
      prevEnd prev (c :: u) = some (u.getLastD c) := by
  intro u
  induction u with
  | nil => intro c prev; rfl
  | cons d u' ih =>
    intro c prev
    have e : prevEnd prev (c :: d :: u') = prevEnd (some c) (d :: u') := rfl
    rw [e, ih d (some c), List.getLastD_cons]

/-- Rebuilding a nonempty list from its leading part and last element. -/
theorem dropLast_append_getLastD :
    ∀ (l : List Char) (c : Char),
      (c :: l).dropLast ++ [l.getLastD c] = c :: l := by
  intro l
  induction l with
  | nil => intro c; rfl
  | cons d l' ih =>
    intro c
    have e1 : (c :: d :: l').dropLast = c :: (d :: l').dropLast := rfl
    rw [e1, List.getLastD_cons]
    have e2 : (c :: (d :: l').dropLast) ++ [l'.getLastD d] =
        c :: ((d :: l').dropLast ++ [l'.getLastD d]) := rfl
    rw [e2, ih d]

/-- A region that ends in a word character (open flank) is nonempty and
splits off that final word character. -/
theorem exists_concat_of_flank :
    ∀ u : List Char, noWordL (prevEnd none u) = false →
      ∃ x w, u = x ++ [w] ∧ isWordChar w = true := by
  intro u hu
  cases u with
  | nil => exact absurd hu (by decide)
  | cons c u' =>
    refine ⟨(c :: u').dropLast, u'.getLastD c,
      (dropLast_append_getLastD u' c).symm, ?_⟩
    rw [prevEnd_eq_getLastD u' c none] at hu
    cases hx : isWordChar (u'.getLastD c) with
    | false =>
      exfalso
      have e : noWordL (some (u'.getLastD c)) = !isWordChar (u'.getLastD c) := rfl
      rw [e, hx] at hu
      exact Bool.noConfusion hu
    | true => rfl

/-- The boolean prefix test holds on a list and itself. -/
theorem pfxOf_self (l : List Char) : l.isPrefixOf l = true :=
  pfxOf_iff.mpr (List.prefix_refl l)

/-- No word-bounded match can begin strictly before an all-word-character
occurrence and reach into it: the matched pattern would either contain
the occurrence at a positive offset (excluded by the certificate) or end
strictly inside it, where the right-boundary test meets a word
character. -/
theorem no_overlap_into_id (pat id : List Char)
    (hidw : ∀ c ∈ id, isWordChar c = true)
    (hnoin : ∀ t, t < pat.length → 0 < t → id.isPrefixOf (pat.drop t) = false)
    (c : Char) (u₂ v : List Char)
    (hgt : u₂.length < pat.length - 1)
    (hmPfx : pat.isPrefixOf (c :: ((u₂ ++ id) ++ v)) = true)
    (hmAfter : bAfter (List.drop pat.length (c :: ((u₂ ++ id) ++ v))) = true) :
    False := by
  have hltu : (c :: u₂).length < pat.length := by
    simp only [List.length_cons]
    omega
  have hP : pat <+: (c :: u₂) ++ (id ++ v) := by
    have e2 : c :: ((u₂ ++ id) ++ v) = (c :: u₂) ++ (id ++ v) := by
      simp [List.append_assoc]
    rw [← e2]
    exact pfxOf_iff.mp hmPfx
  have hupfx : (c :: u₂) <+: pat := by
    rcases pfx_comp (pfx_app (c :: u₂) (id ++ v)) hP with h' | h'
    · exact h'
    · exfalso
      have := h'.length_le
      omega
  rcases hupfx with ⟨r, hr⟩
  rcases hP with ⟨t, ht⟩
  have htOrig := ht
  rw [← hr, List.append_assoc] at ht
  have hrt : r ++ t = id ++ v := List.append_cancel_left ht
  have hrdrop : r = pat.drop (c :: u₂).length := by
    rw [← hr, List.drop_left]
  have hrlenx : r.length = pat.length - (c :: u₂).length := by
    rw [hrdrop, List.length_drop]
  rcases pfx_comp (⟨t, hrt⟩ : r <+: id ++ v) (pfx_app id v) with h' | h'
  · rcases Nat.lt_or_ge r.length id.length with hrlt | hrge
    · -- the match would end strictly inside the occurrence
      have hid_split : r ++ List.drop r.length id = id := by
        rcases h' with ⟨q, hq⟩
        have hq2 : q = List.drop r.length id := by
          rw [← hq, List.drop_left]
        rw [← hq2, hq]
      have ht2 : t = List.drop r.length id ++ v := by
        have e3 : r ++ t = r ++ (List.drop r.length id ++ v) := by
          rw [hrt, ← List.append_assoc, hid_split]
        exact List.append_cancel_left e3
      have hdne : List.drop r.length id ≠ [] := by
        intro hnil
        have := List.drop_eq_nil_iff.mp hnil
        omega
      obtain ⟨d, rest2, hd⟩ : ∃ d rest2, List.drop r.length id = d :: rest2 := by
        cases hx : List.drop r.length id with
        | nil => exact absurd hx hdne
        | cons d rest2 => exact ⟨d, rest2, rfl⟩
      have hdw : isWordChar d = true := by
        apply hidw
        have hmm2 : d ∈ List.drop r.length id := by rw [hd]; simp
        exact List.mem_of_mem_drop hmm2
      have hdropS : List.drop pat.length (c :: ((u₂ ++ id) ++ v)) = t := by
        have e2 : c :: ((u₂ ++ id) ++ v) = pat ++ t := by
          rw [htOrig]
          simp [List.append_assoc]
        rw [e2, List.drop_left]
      rw [hdropS, ht2, hd] at hmAfter
      have eb : bAfter ((d :: rest2) ++ v) = !isWordChar d := rfl
      rw [eb, hdw] at hmAfter
      simp at hmAfter
    · -- the match would cover the occurrence exactly up to its end
      have hre : r = id := h'.eq_of_length (Nat.le_antisymm h'.length_le hrge)
      have hbad : id.isPrefixOf (pat.drop (c :: u₂).length) = true := by
        rw [← hrdrop, hre]
        exact pfxOf_self id
      rw [hnoin (c :: u₂).length hltu (by simp)] at hbad
      exact Bool.noConfusion hbad
  · -- the match would cover the occurrence and continue past it
    have hbad : id.isPrefixOf (pat.drop (c :: u₂).length) = true := by
      rw [← hrdrop]
      exact pfxOf_iff.mpr h'
    rw [hnoin (c :: u₂).length hltu (by simp)] at hbad
    exact Bool.noConfusion hbad

/-- A word-bounded rule preserves an identifier occurrence glued to a
word character on its left, in any context: since the pattern never
contains the identifier at a positive offset and every match needs both
boundaries, the scan rewrites only strictly before or strictly after the
occurrence, and the rewritten left part still ends in a word
character. -/
theorem subWord_occ_left (pat repl id : List Char)
    (hpne : pat ≠ []) (hpw : ∀ c ∈ pat, isWordChar c = true)
    (hidne : id ≠ []) (hidw : ∀ c ∈ id, isWordChar c = true)
    (hnoin : ∀ t, t < pat.length → 0 < t → id.isPrefixOf (pat.drop t) = false)
    (hrne : repl ≠ []) (hrlast : noWordL (prevEnd none repl) = false) :
    ∀ (fuel : Nat) (u v : List Char) (prev : Option Char),
      noWordL (prevEnd prev u) = false →
      u.length + id.length + v.length ≤ fuel →
      ∃ u' v', subWordAux pat repl prev fuel ((u ++ id) ++ v) =
          (u' ++ id) ++ v' ∧ noWordL (prevEnd prev u') = false := by
  intro fuel
  induction fuel with
  | zero =>
    intro u v prev _ hlen
    exfalso
    have hpos : 0 < id.length := List.length_pos.mpr hidne
    omega
  | succ n ih =>
    intro u v prev hflank hlen
    cases u with
    | nil =>
      have hprev : noWordL prev = false := hflank
      have hbi : blockInert pat (noWordL prev) id = true := by
        rw [hprev]
        exact blockInert_false_of_allword pat id hidw
      have hidlen : id.length ≤ n + 1 := by
        simp only [List.length_nil] at hlen
        omega
      have hblock := subWordAux_copy_block pat repl id (n + 1) prev v hbi hidlen
      exact ⟨[], subWordAux pat repl (prevEnd prev id) (n + 1 - id.length) v,
        by simpa using hblock, hflank⟩
    | cons c u₂ =>
      have e : ((c :: u₂) ++ id) ++ v = c :: ((u₂ ++ id) ++ v) := rfl
      cases hm : wordMatchAt pat prev (c :: ((u₂ ++ id) ++ v)) with
      | true =>
        have hm' := hm
        rw [wordMatchAt] at hm'
        rcases Bool.and_eq_true_iff.mp hm' with ⟨hm1, hmAfter⟩
        rcases Bool.and_eq_true_iff.mp hm1 with ⟨hmPrev, hmPfx⟩
        rcases Nat.lt_or_ge u₂.length (pat.length - 1) with hgt | hle
        · exact (no_overlap_into_id pat id hidw hnoin c u₂ v hgt hmPfx hmAfter).elim
        · have hpl : isWordChar (pat.getLastD c) = true := by
            apply hpw
            have hmem := List.getLastD_mem_cons pat c
            rcases List.mem_cons.mp hmem with h | h
            · rw [h]
              cases pat with
              | nil => exact absurd rfl hpne
              | cons p ps =>
                rw [List.isPrefixOf] at hmPfx
                rcases Bool.and_eq_true_iff.mp hmPfx with ⟨hpc, _⟩
                exact List.mem_cons.mpr (Or.inl (beq_iff_eq.mp hpc).symm)
            · exact h
          have edrop : List.drop (pat.length - 1) ((u₂ ++ id) ++ v) =
              (List.drop (pat.length - 1) u₂ ++ id) ++ v := by
            rw [List.append_assoc, drop_append_le (id ++ v) hle, ← List.append_assoc]
          have hflank' : noWordL (prevEnd (some (pat.getLastD c))
              (List.drop (pat.length - 1) u₂)) = false := by
            cases hdn : List.drop (pat.length - 1) u₂ with
            | nil =>
              show noWordL (some (pat.getLastD c)) = false
              have e2 : noWordL (some (pat.getLastD c)) =
                  !isWordChar (pat.getLastD c) := rfl
              rw [e2, hpl]
              rfl
            | cons d dd =>
              rw [← hdn]
              have e3 : c :: u₂ = (c :: List.take (pat.length - 1) u₂) ++
                  List.drop (pat.length - 1) u₂ := by
                rw [List.cons_append, List.take_append_drop]
              rw [e3, prevEnd_append] at hflank
              rw [prevEnd_ne_nil (List.drop (pat.length - 1) u₂) _
                (prevEnd prev (c :: List.take (pat.length - 1) u₂))
                (by rw [hdn]; simp)]
              exact hflank
          have hlen' : (List.drop (pat.length - 1) u₂).length + id.length +
              v.length ≤ n := by
            simp only [List.length_cons] at hlen
            simp only [List.length_drop]
            omega
          obtain ⟨u', v', heq, hfl⟩ := ih (List.drop (pat.length - 1) u₂) v
            (some (pat.getLastD c)) hflank' hlen'
          refine ⟨repl ++ u', v', ?_, ?_⟩
          · rw [e]
            simp only [subWordAux, hm, if_true]
            rw [edrop, heq]
            simp [List.append_assoc]
          · cases u' with
            | nil =>
              simp only [List.append_nil]
              rw [prevEnd_ne_nil repl prev none hrne]
              exact hrlast
            | cons x xs =>
              rw [prevEnd_append, prevEnd_ne_nil (x :: xs) (prevEnd prev repl)
                (some (pat.getLastD c)) (by simp)]
              exact hfl
      | false =>
        have hflank₂ : noWordL (prevEnd (some c) u₂) = false := hflank
        have hlen' : u₂.length + id.length + v.length ≤ n := by
          simp only [List.length_cons] at hlen
          omega
        obtain ⟨u', v', heq, hfl⟩ := ih u₂ v (some c) hflank₂ hlen'
        refine ⟨c :: u', v', ?_, ?_⟩
        · rw [e]
          simp only [subWordAux, hm, Bool.false_eq_true, if_false]
          rw [heq]
          simp [List.append_assoc]
        · exact hfl

/-- A word-bounded rule preserves an identifier occurrence glued to a
word character on its right, in any context: a match covering the
occurrence would have to end exactly at its end (where the right
boundary meets the following word character), extend the identifier
(excluded by the certificates), or end inside it, and the part after the
occurrence still starts with a word character. -/
theorem subWord_occ_right (pat repl id : List Char)
    (hpne : pat ≠ []) (hpw : ∀ c ∈ pat, isWordChar c = true)
    (hidne : id ≠ []) (hidw : ∀ c ∈ id, isWordChar c = true)
    (hnoin : ∀ t, t < pat.length → 0 < t → id.isPrefixOf (pat.drop t) = false)
    (hnoext : pat.length ≤ id.length ∨ id.isPrefixOf pat = false) :
    ∀ (fuel : Nat) (u v : List Char) (prev : Option Char),
      bAfter v = false →
      u.length + id.length + v.length ≤ fuel →
      ∃ u' v', subWordAux pat repl prev fuel ((u ++ id) ++ v) =
          (u' ++ id) ++ v' ∧ bAfter v' = false := by
  intro fuel
  induction fuel with
  | zero =>
    intro u v prev _ hlen
    exfalso
    have hpos : 0 < id.length := List.length_pos.mpr hidne
    omega
  | succ n ih =>
    intro u v prev hright hlen
    cases u with
    | nil =>
      obtain ⟨d, id₂, hid⟩ : ∃ d id₂, id = d :: id₂ := by
        cases hx : id with
        | nil => exact absurd hx hidne
        | cons d id₂ => exact ⟨d, id₂, rfl⟩
      have hnm0 : wordMatchAt pat prev (id ++ v) = false := by
        cases hx : wordMatchAt pat prev (id ++ v) with
        | false => rfl
        | true =>
          exfalso
          rw [wordMatchAt] at hx
          rcases Bool.and_eq_true_iff.mp hx with ⟨hx1, hxAfter⟩
          rcases Bool.and_eq_true_iff.mp hx1 with ⟨_, hxPfx⟩
          have hP : pat <+: id ++ v := pfxOf_iff.mp hxPfx
          have hple : pat.length ≤ id.length := by
            rcases pfx_comp hP (pfx_app id v) with h' | h'
            · exact h'.length_le
            · rcases hnoext with hx2 | hx2
              · exact hx2
              · exfalso
                rw [pfxOf_iff.mpr h'] at hx2
                exact Bool.noConfusion hx2
          have edrop2 : List.drop pat.length (id ++ v) =
              List.drop pat.length id ++ v := drop_append_le v hple
          rw [edrop2] at hxAfter
          cases hdn : List.drop pat.length id with
          | nil =>
            rw [hdn] at hxAfter
            simp only [List.nil_append] at hxAfter
            rw [hxAfter] at hright
            exact Bool.noConfusion hright
          | cons dd rest2 =>
            rw [hdn] at hxAfter
            have hddw : isWordChar dd = true := by
              apply hidw
              have hmm2 : dd ∈ List.drop pat.length id := by rw [hdn]; simp
              exact List.mem_of_mem_drop hmm2
            have eb : bAfter ((dd :: rest2) ++ v) = !isWordChar dd := rfl
            rw [eb, hddw] at hxAfter
            simp at hxAfter
      have hnm : wordMatchAt pat prev (d :: (id₂ ++ v)) = false := by
        have e2 : d :: (id₂ ++ v) = id ++ v := by
          rw [hid]
          rfl
        rw [e2]
        exact hnm0
      have hdw : isWordChar d = true := hidw d (by rw [hid]; simp)
      have hbi : blockInert pat (noWordL (some d)) id₂ = true := by
        have e2 : noWordL (some d) = !isWordChar d := rfl
        rw [e2, hdw]
        exact blockInert_false_of_allword pat id₂
          (fun x hx => hidw x (by rw [hid]; simp [hx]))
      have hlen2 : id₂.length ≤ n := by
        simp only [List.length_nil] at hlen
        rw [hid] at hlen
        simp only [List.length_cons] at hlen
        omega
      have hblock := subWordAux_copy_block pat repl id₂ n (some d) v hbi hlen2
      have e0 : (([] : List Char) ++ id) ++ v = d :: (id₂ ++ v) := by
        rw [hid]
        rfl
      refine ⟨[], subWordAux pat repl (prevEnd (some d) id₂) (n - id₂.length) v,
        ?_, ?_⟩
      · rw [e0]
        simp only [subWordAux, hnm, Bool.false_eq_true, if_false]
        rw [hblock, hid]
        rfl
      · have hpe : noWordL (prevEnd (some d) id₂) = false := by
          cases hid₂ : id₂ with
          | nil =>
            show noWordL (some d) = false
            have e2 : noWordL (some d) = !isWordChar d := rfl
            rw [e2, hdw]
            rfl
          | cons q qs =>
            rw [← hid₂]
            rcases prevEnd_mem id₂ (some d) (by rw [hid₂]; simp) with ⟨x, hx, hxm⟩
            rw [hx]
            have hxw : isWordChar x = true := hidw x (by rw [hid]; simp [hxm])
            have e2 : noWordL (some x) = !isWordChar x := rfl
            rw [e2, hxw]
            rfl
        rw [bAfter_subWordAux pat repl (prevEnd (some d) id₂) (n - id₂.length) v hpe]
        exact hright
    | cons c u₂ =>
      have e : ((c :: u₂) ++ id) ++ v = c :: ((u₂ ++ id) ++ v) := rfl
      cases hm : wordMatchAt pat prev (c :: ((u₂ ++ id) ++ v)) with
      | true =>
        have hm' := hm
        rw [wordMatchAt] at hm'
        rcases Bool.and_eq_true_iff.mp hm' with ⟨hm1, hmAfter⟩
        rcases Bool.and_eq_true_iff.mp hm1 with ⟨hmPrev, hmPfx⟩
        rcases Nat.lt_or_ge u₂.length (pat.length - 1) with hgt | hle
        · exact (no_overlap_into_id pat id hidw hnoin c u₂ v hgt hmPfx hmAfter).elim
        · have edrop : List.drop (pat.length - 1) ((u₂ ++ id) ++ v) =
              (List.drop (pat.length - 1) u₂ ++ id) ++ v := by
            rw [List.append_assoc, drop_append_le (id ++ v) hle, ← List.append_assoc]
          have hlen' : (List.drop (pat.length - 1) u₂).length + id.length +
              v.length ≤ n := by
            simp only [List.length_cons] at hlen
            simp only [List.length_drop]
            omega
          obtain ⟨u', v', heq, hfl⟩ := ih (List.drop (pat.length - 1) u₂) v
            (some (pat.getLastD c)) hright hlen'
          refine ⟨repl ++ u', v', ?_, hfl⟩
          rw [e]
          simp only [subWordAux, hm, if_true]
          rw [edrop, heq]
          simp [List.append_assoc]
      | false =>
        have hlen' : u₂.length + id.length + v.length ≤ n := by
          simp only [List.length_cons] at hlen
          omega
        obtain ⟨u', v', heq, hfl⟩ := ih u₂ v (some c) hright hlen'
        refine ⟨c :: u', v', ?_, hfl⟩
        rw [e]
        simp only [subWordAux, hm, Bool.false_eq_true, if_false]
        rw [heq]
        simp [List.append_assoc]

/-- The literal rule keeps a word head character: a phrase match at the
head replaces it with `void main()`, which also starts with a word
character. -/
theorem bAfter_replaceAll_keep_word :
    ∀ (fuel : Nat) (v : List Char), bAfter v = false →
      bAfter (replaceAllAux phrase replVoidMain fuel v) = false := by
  intro fuel v hv
  cases fuel with
  | zero => exact hv
  | succ n =>
    cases v with
    | nil => exact hv
    | cons c rest =>
      cases hm : phrase.isPrefixOf (c :: rest) with
      | true =>
        simp only [replaceAllAux, hm, if_true]
        rfl
      | false =>
        simp only [replaceAllAux, hm, Bool.false_eq_true, if_false]
        exact hv

/-- The literal rule preserves an identifier occurrence glued to a word
character `w` on its left, in any context: the phrase's tail pieces are
prefix-incomparable with the identifier, the phrase contains the
identifier only after a non-word character, and it ends in a non-word
character, so no phrase match can overlap `w :: id`. -/
theorem replaceAll_occ_left (id : List Char)
    (hidne : id ≠ [])
    (hB1 : (phrase.drop 1).isPrefixOf id = false)
    (hB2 : id.isPrefixOf (phrase.drop 1) = false)
    (hlit : litInert phrase id = true)
    (hF1 : ∀ t, t < phrase.length → 0 < t → (phrase.drop t).isPrefixOf id = false)
    (hF2 : ∀ t, t < phrase.length → id.isPrefixOf (phrase.drop t) = true → 0 < t →
      isWordChar ((phrase.drop (t - 1)).headD ' ') = false) :
    ∀ (fuel : Nat) (u v : List Char) (w : Char), isWordChar w = true →
      (u.length + 1 + id.length) + v.length ≤ fuel →
      ∃ u' v', replaceAllAux phrase replVoidMain fuel ((u ++ (w :: id)) ++ v) =
          (u' ++ (w :: id)) ++ v' := by
  intro fuel
  induction fuel with
  | zero =>
    intro u v w _ hlen
    exfalso
    omega
  | succ n ih =>
    intro u v w hw hlen
    cases u with
    | nil =>
      have hnmw : phrase.isPrefixOf (w :: (id ++ v)) = false := by
        have e2 : phrase.isPrefixOf (w :: (id ++ v)) =
            (('v' == w) && (phrase.drop 1).isPrefixOf (id ++ v)) := rfl
        rw [e2, litMatchAt_false_of_blocked (phrase.drop 1) id v hB1 hB2]
        simp
      have hidlen : id.length ≤ n := by
        simp only [List.length_nil] at hlen
        omega
      have hblock := replaceAllAux_copy_block phrase replVoidMain id n v hlit hidlen
      refine ⟨[], replaceAllAux phrase replVoidMain (n - id.length) v, ?_⟩
      have e0 : (([] : List Char) ++ (w :: id)) ++ v = w :: (id ++ v) := by simp
      rw [e0]
      simp only [replaceAllAux, hnmw, Bool.false_eq_true, if_false]
      rw [hblock]
      simp
    | cons c u₂ =>
      have e : ((c :: u₂) ++ (w :: id)) ++ v = c :: ((u₂ ++ (w :: id)) ++ v) := rfl
      cases hm : phrase.isPrefixOf (c :: ((u₂ ++ (w :: id)) ++ v)) with
      | true =>
        rcases Nat.lt_or_ge u₂.length (phrase.length - 1) with hgt | hle
        · -- a phrase match would overlap the protected region: impossible
          exfalso
          have h1 : (1 : Nat) ≤ phrase.length := by decide
          have hLast : isWordChar ((phrase.drop (phrase.length - 1)).headD ' ') =
              false := by decide
          have hltu : (c :: u₂).length < phrase.length := by
            simp only [List.length_cons]
            omega
          have hP : phrase <+: (c :: u₂) ++ ((w :: id) ++ v) := by
            have e2 : c :: ((u₂ ++ (w :: id)) ++ v) = (c :: u₂) ++ ((w :: id) ++ v) := by
              simp [List.append_assoc]
            rw [← e2]
            exact pfxOf_iff.mp hm
          have hupfx : (c :: u₂) <+: phrase := by
            rcases pfx_comp (pfx_app (c :: u₂) ((w :: id) ++ v)) hP with h' | h'
            · exact h'
            · exfalso
              have := h'.length_le
              omega
          rcases hupfx with ⟨r, hr⟩
          rcases hP with ⟨t, ht⟩
          rw [← hr, List.append_assoc] at ht
          have hrt : r ++ t = (w :: id) ++ v := List.append_cancel_left ht
          have hrdrop : r = phrase.drop (c :: u₂).length := by
            rw [← hr, List.drop_left]
          have hrlenx : r.length = phrase.length - (c :: u₂).length := by
            rw [hrdrop, List.length_drop]
          obtain ⟨rh, r', hrh⟩ : ∃ rh r', r = rh :: r' := by
            cases hx : r with
            | nil =>
              exfalso
              rw [hx] at hrlenx
              simp only [List.length_nil] at hrlenx
              omega
            | cons rh r' => exact ⟨rh, r', rfl⟩
          rw [hrh] at hrt
          have hrt2 : rh :: (r' ++ t) = w :: (id ++ v) := hrt
          obtain ⟨hrhw, hrt3⟩ := List.cons_eq_cons.mp hrt2
          have hrheq : (phrase.drop (c :: u₂).length).headD ' ' = rh := by
            rw [← hrdrop, hrh]
            rfl
          have hr'eq : r' = phrase.drop ((c :: u₂).length + 1) := by
            have e5 : List.drop 1 (phrase.drop (c :: u₂).length) = r' := by
              rw [← hrdrop, hrh]
              rfl
            rw [← e5, List.drop_drop]
          rcases pfx_comp (⟨t, hrt3⟩ : r' <+: id ++ v) (pfx_app id v) with h' | h'
          · rcases Nat.lt_or_ge ((c :: u₂).length + 1) phrase.length with hlt2 | hge2
            · have hbad := hF1 ((c :: u₂).length + 1) hlt2 (by omega)
              rw [← hr'eq, pfxOf_iff.mpr h'] at hbad
              exact Bool.noConfusion hbad
            · -- the match would end right after `w`, the phrase's last character
              have htpos : (c :: u₂).length = phrase.length - 1 := by omega
              have hbadw := hLast
              rw [← htpos, hrheq, hrhw, hw] at hbadw
              exact Bool.noConfusion hbadw
          · -- the phrase would contain the identifier after a word character
            have hlt2 : (c :: u₂).length + 1 < phrase.length := by
              have hidpos : 0 < id.length := List.length_pos.mpr hidne
              have hr'lenx : id.length ≤ r'.length := h'.length_le
              have : r'.length = phrase.length - ((c :: u₂).length + 1) := by
                rw [hr'eq, List.length_drop]
              omega
            have hbad := hF2 ((c :: u₂).length + 1) hlt2 (by
              rw [← hr'eq]
              exact pfxOf_iff.mpr h') (by omega)
            have e6 : (c :: u₂).length + 1 - 1 = (c :: u₂).length := by omega
            rw [e6, hrheq, hrhw, hw] at hbad
            exact Bool.noConfusion hbad
        · have edrop : List.drop (phrase.length - 1) ((u₂ ++ (w :: id)) ++ v) =
              (List.drop (phrase.length - 1) u₂ ++ (w :: id)) ++ v := by
            rw [List.append_assoc, drop_append_le ((w :: id) ++ v) hle,
              ← List.append_assoc]
          obtain ⟨u', v', heq⟩ := ih (List.drop (phrase.length - 1) u₂) v w hw (by
            simp only [List.length_cons] at hlen
            simp only [List.length_drop]
            omega)
          refine ⟨replVoidMain ++ u', v', ?_⟩
          rw [e]
          simp only [replaceAllAux, hm, if_true]
          rw [edrop, heq]
          simp [List.append_assoc]
      | false =>
        obtain ⟨u', v', heq⟩ := ih u₂ v w hw (by
          simp only [List.length_cons] at hlen
          omega)
        refine ⟨c :: u', v', ?_⟩
        rw [e]
        simp only [replaceAllAux, hm, Bool.false_eq_true, if_false]
        rw [heq]
        simp [List.append_assoc]

/-- The literal rule preserves an identifier occurrence followed by a
word character, in any context: the phrase is prefix-incomparable with
the identifier's suffixes, contains it only with a non-word character
after it, and never equals one of its own tails, so no phrase match can
overlap the occurrence; and the scanned tail still starts with a word
character. -/
theorem replaceAll_occ_right (id : List Char)
    (hidne : id ≠ [])
    (hlit : litInert phrase id = true)
    (hF1 : ∀ t, t < phrase.length → 0 < t → (phrase.drop t).isPrefixOf id = false)
    (hF3 : ∀ t, t < phrase.length → id.isPrefixOf (phrase.drop t) = true →
      isWordChar ((phrase.drop (t + id.length)).headD ' ') = false)
    (hF4 : ∀ t, t < phrase.length → 0 < t → ¬(phrase.drop t = id)) :
    ∀ (fuel : Nat) (u v : List Char),
      bAfter v = false →
      (u.length + id.length) + v.length ≤ fuel →
      ∃ u' v', replaceAllAux phrase replVoidMain fuel ((u ++ id) ++ v) =
          (u' ++ id) ++ v' ∧ bAfter v' = false := by
  intro fuel
  induction fuel with
  | zero =>
    intro u v _ hlen
    exfalso
    have hpos : 0 < id.length := List.length_pos.mpr hidne
    omega
  | succ n ih =>
    intro u v hright hlen
    cases u with
    | nil =>
      have hidlen : id.length ≤ n + 1 := by
        simp only [List.length_nil] at hlen
        omega
      have hblock := replaceAllAux_copy_block phrase replVoidMain id (n + 1) v
        hlit hidlen
      refine ⟨[], replaceAllAux phrase replVoidMain (n + 1 - id.length) v, ?_, ?_⟩
      · simpa using hblock
      · exact bAfter_replaceAll_keep_word (n + 1 - id.length) v hright
    | cons c u₂ =>
      have e : ((c :: u₂) ++ id) ++ v = c :: ((u₂ ++ id) ++ v) := rfl
      cases hm : phrase.isPrefixOf (c :: ((u₂ ++ id) ++ v)) with
      | true =>
        rcases Nat.lt_or_ge u₂.length (phrase.length - 1) with hgt | hle
        · -- a phrase match would overlap the occurrence: impossible
          exfalso
          have h1 : (1 : Nat) ≤ phrase.length := by decide
          have hltu : (c :: u₂).length < phrase.length := by
            simp only [List.length_cons]
            omega
          have hP : phrase <+: (c :: u₂) ++ (id ++ v) := by
            have e2 : c :: ((u₂ ++ id) ++ v) = (c :: u₂) ++ (id ++ v) := by
              simp [List.append_assoc]
            rw [← e2]
            exact pfxOf_iff.mp hm
          have hupfx : (c :: u₂) <+: phrase := by
            rcases pfx_comp (pfx_app (c :: u₂) (id ++ v)) hP with h' | h'
            · exact h'
            · exfalso
              have := h'.length_le
              omega
          rcases hupfx with ⟨r, hr⟩
          rcases hP with ⟨t, ht⟩
          rw [← hr, List.append_assoc] at ht
          have hrt : r ++ t = id ++ v := List.append_cancel_left ht
          have hrdrop : r = phrase.drop (c :: u₂).length := by
            rw [← hr, List.drop_left]
          rcases pfx_comp (⟨t, hrt⟩ : r <+: id ++ v) (pfx_app id v) with h' | h'
          · -- a tail of the phrase would be a prefix of the identifier
            have hbad := hF1 (c :: u₂).length hltu (by simp)
            rw [← hrdrop, pfxOf_iff.mpr h'] at hbad
            exact Bool.noConfusion hbad
          · -- the phrase tail starts with the identifier
            have hr_split : id ++ List.drop id.length r = r := by
              rcases h' with ⟨q, hq⟩
              have hq2 : q = List.drop id.length r := by
                rw [← hq, List.drop_left]
              rw [← hq2, hq]
            have hrest_eq : List.drop id.length r =
                phrase.drop ((c :: u₂).length + id.length) := by
              rw [hrdrop, List.drop_drop]
            cases hdn : List.drop id.length r with
            | nil =>
              -- the phrase tail would be exactly the identifier
              have hreq : r = id := by
                rw [← hr_split, hdn, List.append_nil]
              exact hF4 (c :: u₂).length hltu (by simp) (by rw [← hrdrop]; exact hreq)
            | cons d rest2 =>
              -- the phrase would cover the word character after the occurrence
              obtain ⟨vh, v₂, hveq, hvhw⟩ :
                  ∃ vh v₂, v = vh :: v₂ ∧ isWordChar vh = true := by
                cases hvx : v with
                | nil =>
                  exfalso
                  rw [hvx] at hright
                  exact Bool.noConfusion hright
                | cons vh v₂ =>
                  refine ⟨vh, v₂, rfl, ?_⟩
                  rw [hvx] at hright
                  cases hx : isWordChar vh with
                  | true => rfl
                  | false =>
                    exfalso
                    have eb : bAfter (vh :: v₂) = !isWordChar vh := rfl
                    rw [eb, hx] at hright
                    simp at hright
              have hdt : (d :: rest2) ++ t = v := by
                have e7 : id ++ ((d :: rest2) ++ t) = id ++ v := by
                  rw [← List.append_assoc]
                  rw [hdn] at hr_split
                  rw [hr_split, hrt]
                exact List.append_cancel_left e7
              have hdvh : d = vh := by
                rw [hveq] at hdt
                have e8 : d :: (rest2 ++ t) = vh :: v₂ := hdt
                exact (List.cons_eq_cons.mp e8).1
              have hbad := hF3 (c :: u₂).length hltu (by
                rw [← hrdrop]
                exact pfxOf_iff.mpr h')
              rw [← hrest_eq, hdn] at hbad
              have e9 : ((d :: rest2) : List Char).headD ' ' = d := rfl
              rw [e9, hdvh, hvhw] at hbad
              exact Bool.noConfusion hbad
        · have edrop : List.drop (phrase.length - 1) ((u₂ ++ id) ++ v) =
              (List.drop (phrase.length - 1) u₂ ++ id) ++ v := by
            rw [List.append_assoc, drop_append_le (id ++ v) hle, ← List.append_assoc]
          obtain ⟨u', v', heq, hfl⟩ := ih (List.drop (phrase.length - 1) u₂) v
            hright (by
              simp only [List.length_cons] at hlen
              simp only [List.length_drop]
              omega)
          refine ⟨replVoidMain ++ u', v', ?_, hfl⟩
          rw [e]
          simp only [replaceAllAux, hm, if_true]
          rw [edrop, heq]
          simp [List.append_assoc]
      | false =>
        obtain ⟨u', v', heq, hfl⟩ := ih u₂ v hright (by
          simp only [List.length_cons] at hlen
          omega)
        refine ⟨c :: u', v', ?_, hfl⟩
        rw [e]
        simp only [replaceAllAux, hm, Bool.false_eq_true, if_false]
        rw [heq]
        simp [List.append_assoc]

/-- The full pipeline preserves an identifier occurrence glued to a word
character on its left, given the per-rule non-containment certificates
for `id` against the three identifier patterns and the phrase. -/
theorem convert_occ_left (id : List Char)
    (hidne : id ≠ []) (hidw : ∀ c ∈ id, isWordChar c = true)
    (hnoinR : ∀ t, t < patIResolution.length → 0 < t →
      id.isPrefixOf (patIResolution.drop t) = false)
    (hnoinT : ∀ t, t < patITime.length → 0 < t →
      id.isPrefixOf (patITime.drop t) = false)
    (hnoinF : ∀ t, t < patFragCoord.length → 0 < t →
      id.isPrefixOf (patFragCoord.drop t) = false)
    (hB1 : (phrase.drop 1).isPrefixOf id = false)
    (hB2 : id.isPrefixOf (phrase.drop 1) = false)
    (hlit : litInert phrase id = true)
    (hF1 : ∀ t, t < phrase.length → 0 < t → (phrase.drop t).isPrefixOf id = false)
    (hF2 : ∀ t, t < phrase.length → id.isPrefixOf (phrase.drop t) = true → 0 < t →
      isWordChar ((phrase.drop (t - 1)).headD ' ') = false)
    (u v : List Char) (hL : noWordL (prevEnd none u) = false) :
    ∃ u' v', convert_shadertoy_to_glsl ((u ++ id) ++ v) =
        header ++ ((u' ++ id) ++ v') ∧ noWordL (prevEnd none u') = false := by
  obtain ⟨u₁, v₁, he1, hfl1⟩ := subWord_occ_left patIResolution replUResolution id
    (by decide) (by decide) hidne hidw hnoinR (by decide) (by decide)
    ((u ++ id) ++ v).length u v none hL (by simp only [List.length_append]; omega)
  obtain ⟨u₂, v₂, he2, hfl2⟩ := subWord_occ_left patITime replUTime id
    (by decide) (by decide) hidne hidw hnoinT (by decide) (by decide)
    ((u₁ ++ id) ++ v₁).length u₁ v₁ none hfl1
    (by simp only [List.length_append]; omega)
  obtain ⟨x, w, hxw, hwW⟩ := exists_concat_of_flank u₂ hfl2
  have eqU : (u₂ ++ id) ++ v₂ = (x ++ (w :: id)) ++ v₂ := by
    rw [hxw]
    simp [List.append_assoc]
  obtain ⟨u₃, v₃, he3⟩ := replaceAll_occ_left id hidne hB1 hB2 hlit hF1 hF2
    ((x ++ (w :: id)) ++ v₂).length x v₂ w hwW (by
      simp only [List.length_append, List.length_cons]
      omega)
  have hfl4 : noWordL (prevEnd none (u₃ ++ [w])) = false := by
    rw [prevEnd_append]
    show noWordL (some w) = false
    have e2 : noWordL (some w) = !isWordChar w := rfl
    rw [e2, hwW]
    rfl
  have eqU2 : (u₃ ++ (w :: id)) ++ v₃ = ((u₃ ++ [w]) ++ id) ++ v₃ := by
    simp [List.append_assoc]
  obtain ⟨u₄, v₄, he4, hfl5⟩ := subWord_occ_left patFragCoord replGlFragCoord id
    (by decide) (by decide) hidne hidw hnoinF (by decide) (by decide)
    (((u₃ ++ [w]) ++ id) ++ v₃).length (u₃ ++ [w]) v₃ none hfl4
    (by simp only [List.length_append, List.length_cons, List.length_nil]; omega)
  refine ⟨u₄, v₄, ?_, hfl5⟩
  show header ++ sub_fragCoord (sub_mainImage (sub_iTime (sub_iResolution
    ((u ++ id) ++ v)))) = header ++ ((u₄ ++ id) ++ v₄)
  unfold sub_iResolution sub_iTime sub_mainImage sub_fragCoord subWord replaceAll
  rw [he1, he2, eqU, he3, eqU2, he4]

/-- The full pipeline preserves an identifier occurrence followed by a
word character, given the per-rule non-containment and non-extension
certificates for `id`. -/
theorem convert_occ_right (id : List Char)
    (hidne : id ≠ []) (hidw : ∀ c ∈ id, isWordChar c = true)
    (hnoinR : ∀ t, t < patIResolution.length → 0 < t →
      id.isPrefixOf (patIResolution.drop t) = false)
    (hnoinT : ∀ t, t < patITime.length → 0 < t →
      id.isPrefixOf (patITime.drop t) = false)
    (hnoinF : ∀ t, t < patFragCoord.length → 0 < t →
      id.isPrefixOf (patFragCoord.drop t) = false)
    (hextR : patIResolution.length ≤ id.length ∨
      id.isPrefixOf patIResolution = false)
    (hextT : patITime.length ≤ id.length ∨ id.isPrefixOf patITime = false)
    (hextF : patFragCoord.length ≤ id.length ∨ id.isPrefixOf patFragCoord = false)
    (hlit : litInert phrase id = true)
    (hF1 : ∀ t, t < phrase.length → 0 < t → (phrase.drop t).isPrefixOf id = false)
    (hF3 : ∀ t, t < phrase.length → id.isPrefixOf (phrase.drop t) = true →
      isWordChar ((phrase.drop (t + id.length)).headD ' ') = false)
    (hF4 : ∀ t, t < phrase.length → 0 < t → ¬(phrase.drop t = id))
    (u v : List Char) (hR : bAfter v = false) :
    ∃ u' v', convert_shadertoy_to_glsl ((u ++ id) ++ v) =
        header ++ ((u' ++ id) ++ v') ∧ bAfter v' = false := by
  obtain ⟨u₁, v₁, he1, hr1⟩ := subWord_occ_right patIResolution replUResolution id
    (by decide) (by decide) hidne hidw hnoinR hextR
    ((u ++ id) ++ v).length u v none hR (by simp only [List.length_append]; omega)
  obtain ⟨u₂, v₂, he2, hr2⟩ := subWord_occ_right patITime replUTime id
    (by decide) (by decide) hidne hidw hnoinT hextT
    ((u₁ ++ id) ++ v₁).length u₁ v₁ none hr1
    (by simp only [List.length_append]; omega)
  obtain ⟨u₃, v₃, he3, hr3⟩ := replaceAll_occ_right id hidne hlit hF1 hF3 hF4
    ((u₂ ++ id) ++ v₂).length u₂ v₂ hr2 (by simp only [List.length_append]; omega)
  obtain ⟨u₄, v₄, he4, hr4⟩ := subWord_occ_right patFragCoord replGlFragCoord id
    (by decide) (by decide) hidne hidw hnoinF hextF
    ((u₃ ++ id) ++ v₃).length u₃ v₃ none hr3
    (by simp only [List.length_append]; omega)
  refine ⟨u₄, v₄, ?_, hr4⟩
  show header ++ sub_fragCoord (sub_mainImage (sub_iTime (sub_iResolution
    ((u ++ id) ++ v)))) = header ++ ((u₄ ++ id) ++ v₄)
  unfold sub_iResolution sub_iTime sub_mainImage sub_fragCoord subWord replaceAll
  rw [he1, he2, he3, he4]

/-- C1: counterexample.  On the literal scenario-1 input the rewriter
does not produce the body `void main() { gl_FragCoord.xy = vec4(...) }`
the claim states: no rule renames the assignment target `fragColor`. -/
theorem C1_counterexample :
    convert_shadertoy_to_glsl scenario1 ≠ header ++ claimedBody1 := by decide

/-- C1 (amended): on the scenario-1 input the output is the fixed
preamble followed by the body
`void main() { fragColor = vec4(uResolution.xy, uTime, 1.0); }` —
the entry point, `iResolution` and `iTime` are rewritten, while the
assignment target `fragColor` stays. -/
theorem C1_amended :
    convert_shadertoy_to_glsl scenario1 = header ++ body1 := by decide

/-- C2: counterexample.  For the scenario-2 input (extra space before
the signature's closing parenthesis) the output does not retain the
signature untouched: rule 4 rewrites the `fragCoord` parameter inside
the unmatched signature. -/
theorem C2_counterexample :
    convert_shadertoy_to_glsl scenario2 ≠ header ++ claimedBody2 := by decide

/-- C2 (amended): with non-standard spacing rule 3 does not match, so
`mainImage` is not rewritten to `main()`; rules 1 and 2 apply elsewhere,
and rule 4 still rewrites the standalone identifier `fragCoord` even
inside the unmatched signature. -/
theorem C2_amended :
    convert_shadertoy_to_glsl scenario2 = header ++ body2 := by decide

/-- C3: rule order 3-before-4 is behaviorally significant.  Scenario 1
contains the literal phrase; with the source's order the phrase is
rewritten to `void main()`, while the variant pipeline that runs rule 4
first produces a different output in which the phrase is no longer
rewritten (`mainImage` survives and no `void main()` appears). -/
theorem C3_order_sensitivity :
    hasLitOcc phrase scenario1 = true ∧
    convert_shadertoy_to_glsl scenario1 = header ++ body1 ∧
    convert_swapped scenario1 ≠ convert_shadertoy_to_glsl scenario1 ∧
    hasLitOcc replVoidMain (convert_swapped scenario1) = false ∧
    hasLitOcc "mainImage".data (convert_swapped scenario1) = true :=
  ⟨by decide, by decide, by decide, by decide, by decide⟩

/-- If every rule finds no occurrence in `s`, the whole pipeline returns
the preamble followed by the unchanged input. -/
theorem convert_eq_header_append_self (s : List Char)
    (h1 : hasWordOcc patIResolution none s = false)
    (h2 : hasWordOcc patITime none s = false)
    (h3 : hasLitOcc phrase s = false)
    (h4 : hasWordOcc patFragCoord none s = false) :
    convert_shadertoy_to_glsl s = header ++ s := by
  unfold convert_shadertoy_to_glsl sub_iResolution sub_iTime sub_mainImage sub_fragCoord
    subWord replaceAll
  rw [subWordAux_id_of_no_occ _ _ _ _ _ h1, subWordAux_id_of_no_occ _ _ _ _ _ h2,
    replaceAllAux_id_of_no_occ _ _ _ _ h3, subWordAux_id_of_no_occ _ _ _ _ _ h4]

/-- A short string cannot contain a longer pattern. -/
theorem hasLitOcc_short (pat : List Char) :
    ∀ l : List Char, l.length < pat.length → hasLitOcc pat l = false := by
  intro l
  induction l with
  | nil => intro _; rfl
  | cons c rest ih =>
    intro hlen
    have hpfx : pat.isPrefixOf (c :: rest) = false := by
      cases hx : pat.isPrefixOf (c :: rest) with
      | false => rfl
      | true =>
        exfalso
        have := (pfxOf_iff.mp hx).length_le
        simp only [List.length_cons] at this hlen
        omega
    rw [hasLitOcc, hpfx]
    have : rest.length < pat.length := by
      simp only [List.length_cons] at hlen; omega
    simp [ih this]

/-- In an all-word-character region whose left boundary is closed, no
word-bounded occurrence can start. -/
theorem hwo_allword (pat : List Char) :
    ∀ (l : List Char) (prev : Option Char), noWordL prev = false →
      (∀ c ∈ l, isWordChar c = true) → hasWordOcc pat prev l = false := by
  intro l
  induction l with
  | nil => intro prev _ _; rfl
  | cons c rest ih =>
    intro prev hprev hl
    have hnm : wordMatchAt pat prev (c :: rest) = false := by
      simp [wordMatchAt, hprev]
    rw [hasWordOcc, hnm]
    have hcw : isWordChar c = true := hl c (by simp)
    have := ih (some c) (by simp [noWordL, hcw]) (fun x hx => hl x (by simp [hx]))
    simp [this]

/-- No word-bounded occurrence of `pat` in `w :: l` when `pat`'s tail is
not a prefix of `l` (textual mismatch just after the free first
character) and `l` is all word characters. -/
theorem hwo_cons_word (pat l : List Char) (w : Char) (hw : isWordChar w = true)
    (hne : pat ≠ []) (htail : pat.tail.isPrefixOf l = false)
    (hl : ∀ c ∈ l, isWordChar c = true) :
    hasWordOcc pat none (w :: l) = false := by
  cases pat with
  | nil => cases hne rfl
  | cons p ps =>
    have hpfx : (p :: ps).isPrefixOf (w :: l) = false := by
      rw [List.isPrefixOf]
      have : ps.isPrefixOf l = false := htail
      simp [this]
    have hnm : wordMatchAt (p :: ps) none (w :: l) = false := by
      simp [wordMatchAt, hpfx]
    rw [hasWordOcc, hnm]
    simp [hwo_allword (p :: ps) l (some w) (by simp [noWordL, hw]) hl]

/-- No word-bounded occurrence of an all-word pattern in `pat ++ [w]`
with `w` a word character: the head position fails the right boundary
and every later position fails the left boundary. -/
theorem hwo_self_append (pat : List Char) (w : Char) (hne : pat ≠ [])
    (hw : isWordChar w = true) (hpw : ∀ c ∈ pat, isWordChar c = true) :
    hasWordOcc pat none (pat ++ [w]) = false := by
  cases pat with
  | nil => cases hne rfl
  | cons p ps =>
    have hba : bAfter (List.drop (p :: ps).length ((p :: ps) ++ [w])) = false := by
      rw [List.drop_left]
      simp [bAfter, hw]
    have hnm : wordMatchAt (p :: ps) none ((p :: ps) ++ [w]) = false := by
      rw [wordMatchAt, hba]
      simp
    have e : (p :: ps) ++ [w] = p :: (ps ++ [w]) := rfl
    rw [e] at hnm ⊢
    rw [hasWordOcc, hnm]
    have hall : ∀ c ∈ ps ++ [w], isWordChar c = true := by
      intro c hc
      rcases List.mem_append.mp hc with h | h
      · exact hpw c (List.mem_cons_of_mem p h)
      · rw [List.mem_singleton.mp h]; exact hw
    have hpword : isWordChar p = true := hpw p (List.mem_cons_self p ps)
    simp [hwo_allword (p :: ps) (ps ++ [w]) (some p) (by simp [noWordL, hpword]) hall]

/-- No word-bounded occurrence of `pat` in `l ++ [w]` when `pat` and the
all-word block `l` are prefix-incomparable. -/
theorem hwo_cross_append (pat l : List Char) (w : Char) (hw : isWordChar w = true)
    (hlne : l ≠ []) (hl : ∀ c ∈ l, isWordChar c = true)
    (hp1 : pat.isPrefixOf l = false) (hp2 : l.isPrefixOf pat = false) :
    hasWordOcc pat none (l ++ [w]) = false := by
  cases hpl : l with
  | nil => cases hlne hpl
  | cons c l' =>
    subst hpl
    have hnm := wordMatchAt_false_of_blocked pat none (c :: l') [w] (Or.inr ⟨hp1, hp2⟩)
    have e : (c :: l') ++ [w] = c :: (l' ++ [w]) := rfl
    rw [e] at hnm ⊢
    rw [hasWordOcc, hnm]
    have hcw : isWordChar c = true := hl c (by simp)
    have hall : ∀ x ∈ l' ++ [w], isWordChar x = true := by
      intro x hx
      rcases List.mem_append.mp hx with h | h
      · exact hl x (by simp [h])
      · rw [List.mem_singleton.mp h]; exact hw
    simp [hwo_allword pat (l' ++ [w]) (some c) (by simp [noWordL, hcw]) hall]

/-- C4: an input with no identifier occurrence of `iResolution`, `iTime`
or `fragCoord` and no occurrence of the rule-3 phrase is returned as the
fixed preamble concatenated with the unchanged input; in particular the
empty input yields exactly the preamble. -/
theorem C4_no_tokens_identity :
    (∀ s : List Char,
        hasWordOcc patIResolution none s = false →
        hasWordOcc patITime none s = false →
        hasLitOcc phrase s = false →
        hasWordOcc patFragCoord none s = false →
        convert_shadertoy_to_glsl s = header ++ s) ∧
      convert_shadertoy_to_glsl [] = header := by
  constructor
  · exact convert_eq_header_append_self
  · decide

/-- C4 witness: a concrete token-free input, hypotheses checked by
computation, and the resulting identity behavior. -/
theorem C4_witness :
    hasWordOcc patIResolution none "vec4 color;".data = false ∧
    hasWordOcc patITime none "vec4 color;".data = false ∧
    hasLitOcc phrase "vec4 color;".data = false ∧
    hasWordOcc patFragCoord none "vec4 color;".data = false ∧
    convert_shadertoy_to_glsl "vec4 color;".data = header ++ "vec4 color;".data :=
  ⟨by decide, by decide, by decide, by decide,
    C4_no_tokens_identity.1 _ (by decide) (by decide) (by decide) (by decide)⟩

/-- C5: each identifier rule is idempotent: applying rule 1, rule 2 or
rule 4 twice yields the same string as applying it once, because each
replacement introduces no new match of its own pattern. -/
theorem C5_identifier_rules_idempotent :
    ∀ s : List Char,
      sub_iResolution (sub_iResolution s) = sub_iResolution s ∧
      sub_iTime (sub_iTime s) = sub_iTime s ∧
      sub_fragCoord (sub_fragCoord s) = sub_fragCoord s := by
  intro s
  refine ⟨?_, ?_, ?_⟩
  · exact subWordAux_idem patIResolution replUResolution (by decide) (by decide)
      (by decide) (by decide) (by decide) s.length s none none
      (subWordAux patIResolution replUResolution none s.length s).length
      rfl (Nat.le_refl _) (Nat.le_refl _)
  · exact subWordAux_idem patITime replUTime (by decide) (by decide)
      (by decide) (by decide) (by decide) s.length s none none
      (subWordAux patITime replUTime none s.length s).length
      rfl (Nat.le_refl _) (Nat.le_refl _)
  · exact subWordAux_idem patFragCoord replGlFragCoord (by decide) (by decide)
      (by decide) (by decide) (by decide) s.length s none none
      (subWordAux patFragCoord replGlFragCoord none s.length s).length
      rfl (Nat.le_refl _) (Nat.le_refl _)

/-- C6: the identifier rules match whole identifiers only: for every
input decomposed as `u ++ id ++ v` around an occurrence of
`iResolution`, `iTime` or `fragCoord` that is immediately preceded by an
identifier character (`u` ends in a word character) or immediately
followed by one (`v` starts with a word character) — an occurrence
inside a longer identifier — the whole rewrite leaves that occurrence
unchanged in place, still glued to an identifier character on the same
side, whatever the surrounding text is. -/
theorem C6_whole_identifiers_only :
    ∀ u v : List Char,
      (noWordL (prevEnd none u) = false →
        (∃ u' v', convert_shadertoy_to_glsl ((u ++ patIResolution) ++ v) =
            header ++ ((u' ++ patIResolution) ++ v') ∧
          noWordL (prevEnd none u') = false) ∧
        (∃ u' v', convert_shadertoy_to_glsl ((u ++ patITime) ++ v) =
            header ++ ((u' ++ patITime) ++ v') ∧
          noWordL (prevEnd none u') = false) ∧
        (∃ u' v', convert_shadertoy_to_glsl ((u ++ patFragCoord) ++ v) =
            header ++ ((u' ++ patFragCoord) ++ v') ∧
          noWordL (prevEnd none u') = false)) ∧
      (bAfter v = false →
        (∃ u' v', convert_shadertoy_to_glsl ((u ++ patIResolution) ++ v) =
            header ++ ((u' ++ patIResolution) ++ v') ∧ bAfter v' = false) ∧
        (∃ u' v', convert_shadertoy_to_glsl ((u ++ patITime) ++ v) =
            header ++ ((u' ++ patITime) ++ v') ∧ bAfter v' = false) ∧
        (∃ u' v', convert_shadertoy_to_glsl ((u ++ patFragCoord) ++ v) =
            header ++ ((u' ++ patFragCoord) ++ v') ∧ bAfter v' = false)) := by
  intro u v
  constructor
  · intro hL
    refine ⟨?_, ?_, ?_⟩
    · exact convert_occ_left patIResolution (by decide) (by decide) (by decide)
        (by decide) (by decide) (by decide) (by decide) (by decide) (by decide)
        (by decide) u v hL
    · exact convert_occ_left patITime (by decide) (by decide) (by decide)
        (by decide) (by decide) (by decide) (by decide) (by decide) (by decide)
        (by decide) u v hL
    · exact convert_occ_left patFragCoord (by decide) (by decide) (by decide)
        (by decide) (by decide) (by decide) (by decide) (by decide) (by decide)
        (by decide) u v hL
  · intro hR
    refine ⟨?_, ?_, ?_⟩
    · exact convert_occ_right patIResolution (by decide) (by decide) (by decide)
        (by decide) (by decide) (by decide) (by decide) (by decide) (by decide)
        (by decide) (by decide) (by decide) u v hR
    · exact convert_occ_right patITime (by decide) (by decide) (by decide)
        (by decide) (by decide) (by decide) (by decide) (by decide) (by decide)
        (by decide) (by decide) (by decide) u v hR
    · exact convert_occ_right patFragCoord (by decide) (by decide) (by decide)
        (by decide) (by decide) (by decide) (by decide) (by decide) (by decide)
        (by decide) (by decide) (by decide) u v hR

/-- C6 witness: in `myiResolution;` the occurrence of `iResolution` is
preceded by the identifier character `y`; the rewrite keeps it in place,
still preceded by a word character. -/
theorem C6_witness :
    noWordL (prevEnd none "my".data) = false ∧
    (∃ u' v', convert_shadertoy_to_glsl (("my".data ++ patIResolution) ++ ";".data) =
        header ++ ((u' ++ patIResolution) ++ v') ∧
      noWordL (prevEnd none u') = false) :=
  ⟨by decide, ((C6_whole_identifiers_only "my".data ";".data).1 (by decide)).1⟩

/-- C7: no rule renames `fragColor`.  For every input decomposed around
a standalone occurrence of the identifier `fragColor` (non-word
neighbours on both sides) that lies outside the rule-3 literal phrase
(the surroundings are not exactly the phrase's interior), the rewritten
body still contains that `fragColor` occurrence, still standalone, with
the surroundings rewritten. -/
theorem C7_fragColor_never_renamed :
    ∀ u v : List Char,
      noWordL (prevEnd none u) = true → bAfter v = true →
      ¬((phrase.take 25 <:+ u) ∧ (phrase.drop 34 <+: v)) →
      ∃ u' v', convert_shadertoy_to_glsl (u ++ fragColorId ++ v) =
          header ++ (u' ++ fragColorId ++ v') ∧
        noWordL (prevEnd none u') = true ∧ bAfter v' = true := by
  intro u v hu hv hOuts
  obtain ⟨u₁, v₁, he1, hu1, hv1, hA1, hB1⟩ :=
    subWord_occ_full patIResolution replUResolution (by decide) (by decide) (by decide)
      u v hu hv
  obtain ⟨u₂, v₂, he2, hu2, hv2, hA2, hB2⟩ :=
    subWord_occ_full patITime replUTime (by decide) (by decide) (by decide)
      u₁ v₁ hu1 hv1
  have hOuts₂ : ¬((phrase.take 25 <:+ u₂) ∧ (phrase.drop 34 <+: v₂)) := by
    intro hand
    refine hOuts ⟨?_, ?_⟩
    · exact hA1 _ (by decide) (by decide) (by decide)
        (hA2 _ (by decide) (by decide) (by decide) hand.1)
    · exact hB1 _ (by decide) (hB2 _ (by decide) hand.2)
  obtain ⟨u₃, f₃, he3, hu3, _⟩ := replaceAll_occ (u₂ ++ fragColorId ++ v₂).length u₂ v₂
    (by simp only [List.length_append]; omega) hu2 hOuts₂
  have hv3 : bAfter (replaceAllAux phrase replVoidMain f₃ v₂) = true :=
    bAfter_replaceAll_phrase f₃ v₂ hv2
  obtain ⟨u₄, v₄, he4, hu4, hv4, _, _⟩ :=
    subWord_occ_full patFragCoord replGlFragCoord (by decide) (by decide) (by decide)
      u₃ (replaceAllAux phrase replVoidMain f₃ v₂) hu3 hv3
  refine ⟨u₄, v₄, ?_, hu4, hv4⟩
  show header ++ sub_fragCoord (sub_mainImage (sub_iTime (sub_iResolution
    (u ++ fragColorId ++ v)))) = header ++ (u₄ ++ fragColorId ++ v₄)
  unfold sub_iResolution sub_iTime sub_mainImage sub_fragCoord replaceAll
  rw [he1, he2, he3, he4]

/-- C7 witness: the input ` fragColor;` (a standalone occurrence with a
space before and a semicolon after, not inside the phrase) keeps its
`fragColor` in the rewritten body. -/
theorem C7_witness :
    ∃ u' v', convert_shadertoy_to_glsl ((' ' :: []) ++ fragColorId ++ (';' :: [])) =
        header ++ (u' ++ fragColorId ++ v') ∧
      noWordL (prevEnd none u') = true ∧ bAfter v' = true :=
  C7_fragColor_never_renamed (' ' :: []) (';' :: []) (by decide) (by decide) (by decide)

/-- C8: the rewriter is a pure total function of its input: on every
input (malformed or empty included) it is defined and yields the
preamble followed by some rewritten body, and its result is unique —
two applications to the same input are identical. -/
theorem C8_pure_total_deterministic :
    ∀ s : List Char,
      (∃ body, convert_shadertoy_to_glsl s = header ++ body) ∧
      ∀ r₁ r₂ : List Char,
        convert_shadertoy_to_glsl s = r₁ → convert_shadertoy_to_glsl s = r₂ → r₁ = r₂ :=
  fun _ => ⟨⟨_, rfl⟩, fun _ _ h₁ h₂ => h₁ ▸ h₂⟩

/-- C8 witness: uniqueness applied at the empty input with both results
computed. -/
theorem C8_witness : (header ++ ([] : List Char)) = header ++ ([] : List Char) :=
  (C8_pure_total_deterministic []).2 (header ++ []) (header ++ []) rfl rfl

/-- C9: the command-line tool exits 0 on success (read, convert, write);
when reading the input file fails the process terminates with a nonzero
status, nothing is retried, and the file system is left unchanged — in
particular the output file is not written. -/
theorem C9_cli_exit_behavior :
    ∀ (files : String → Option (List Char)) (input_file output_file : String),
      (∀ s, files input_file = some s →
        (main files input_file output_file).exitCode = 0 ∧
        (main files input_file output_file).files =
          write_shader_to_file files output_file (convert_shadertoy_to_glsl s)) ∧
      (files input_file = none →
        (main files input_file output_file).exitCode ≠ 0 ∧
        (main files input_file output_file).files = files) := by
  intro files input_file output_file
  constructor
  · intro s hs
    simp only [main, read_shader_from_file, hs]
    exact ⟨trivial, trivial⟩
  · intro hn
    simp only [main, read_shader_from_file, hn]
    exact ⟨by simp, trivial⟩

/-- C9 witness: on a file system where every read fails, the run exits
nonzero and writes nothing. -/
theorem C9_witness :
    (main (fun _ => none) "input.glsl" "output.glsl").exitCode ≠ 0 ∧
    (main (fun _ => none) "input.glsl" "output.glsl").files = (fun _ => none) :=
  (C9_cli_exit_behavior (fun _ => none) "input.glsl" "output.glsl").2 rfl

/-- C10: the preamble prepended to every output (here: the output on
empty input) is exactly the four newline-terminated lines
`#version 330 core`, the `uTime` uniform, the `uResolution` uniform and
the `fragColor` output declaration, selecting GLSL 330 core. -/
theorem C10_preamble :
    convert_shadertoy_to_glsl [] =
      ("#version 330 core\n" ++
       "uniform float uTime;         // Equivalent to iTime\n" ++
       "uniform vec2 uResolution;    // Equivalent to iResolution\n" ++
       "out vec4 fragColor;          // Output variable\n").data := by decide

end S2G
